import Mathlib

/-!
# go-audio: `IntBuffer` (int_buffer.go)

A shallow embedding of `int_buffer.go` and a verification of its
natural-language specification.

* Go `int` is 64 bits wide (the constant `4294967295` compared with `max`
  does not fit a 32-bit `int`).  Samples are modelled as `ℤ`; the code performs
  no integer arithmetic on them that could wrap, and `IsInt64` states the
  range where a theorem needs it.
* `float64` and `float32` values are modelled exactly: a finite value is the
  rational number it denotes, and every conversion and operation rounds to
  nearest, ties to even, in IEEE 754 binary64 or binary32, with gradual
  underflow and overflow to infinity.  The two zeros are identified (Go's
  `==` does not tell them apart either).
* A nil pointer dereference is the error `Panic.nilDereference`.
* `Clone` is embedded over an explicit store of backing arrays, so that
  aliasing between the clone and its source can be stated.
-/

namespace Audio

/-! ## Floating point -/

/-- An IEEE 754 binary interchange format: the precision in bits (hidden bit
included) and the largest exponent.  The smallest normal exponent is
`1 - emax`. -/
structure FloatFormat where
  prec : ℕ
  emax : ℤ

/-- The format of Go's `float32`. -/
def binary32 : FloatFormat := ⟨24, 127⟩

/-- The format of Go's `float64`. -/
def binary64 : FloatFormat := ⟨53, 1023⟩

/-- A floating-point datum: a finite value (the rational it denotes), an
infinity with its sign, or a NaN. -/
inductive FloatVal where
  | finite (q : ℚ)
  | inf (negative : Bool)
  | nan
deriving DecidableEq

/-- Round a rational to the nearest integer, ties to the even one. -/
def roundHalfEven (m : ℚ) : ℤ :=
  if m - ⌊m⌋ < 1 / 2 then ⌊m⌋
  else if 1 / 2 < m - ⌊m⌋ then ⌊m⌋ + 1
  else if ⌊m⌋ % 2 = 0 then ⌊m⌋ else ⌊m⌋ + 1

namespace FloatFormat

/-- Smallest exponent of a normal number. -/
def emin (F : FloatFormat) : ℤ := 1 - F.emax

/-- Exponent at which a magnitude `a` is rounded: `⌊log₂ a⌋`, but never below
`emin` (subnormal range). -/
def exponent (F : FloatFormat) (a : ℚ) : ℤ := max (Int.log 2 a) F.emin

/-- Spacing of the format's values around the magnitude `a`. -/
def ulp (F : FloatFormat) (a : ℚ) : ℚ := 2 ^ (F.exponent a - ((F.prec : ℤ) - 1))

/-- Round a magnitude to the nearest multiple of its ulp, ties to even, with
the exponent unbounded above. -/
def roundMag (F : FloatFormat) (a : ℚ) : ℚ := (roundHalfEven (a / F.ulp a) : ℚ) * F.ulp a

/-- Round a rational to the format: nearest, ties to even; a result of
magnitude `2 ^ (emax + 1)` or more overflows to the infinity of that sign. -/
def round (F : FloatFormat) (q : ℚ) : FloatVal :=
  if (2 : ℚ) ^ (F.emax + 1) ≤ F.roundMag |q| then .inf (decide (q < 0))
  else .finite (if q < 0 then -F.roundMag |q| else F.roundMag |q|)

/-- The finite values of the format: `m * 2 ^ k` with `|m| ≤ 2 ^ prec`, the
exponent `k` not below that of the smallest subnormal, and magnitude below
the overflow threshold. -/
def Representable (F : FloatFormat) (q : ℚ) : Prop :=
  ∃ m k : ℤ, q = (m : ℚ) * 2 ^ k ∧ |m| ≤ 2 ^ F.prec ∧
    F.emin - ((F.prec : ℤ) - 1) ≤ k ∧ |q| < 2 ^ (F.emax + 1)

end FloatFormat

/-- Go's conversion `float64(n)` of an integer. -/
def float64OfInt (n : ℤ) : FloatVal := binary64.round n

/-- Go's conversion `float32(x)` of a `float64`. -/
def float32OfFloat64 : FloatVal → FloatVal
  | .finite q => binary32.round q
  | .inf s => .inf s
  | .nan => .nan

/-- The `float64` product `x * y`. -/
def mul64 : FloatVal → FloatVal → FloatVal
  | .finite a, .finite b => binary64.round (a * b)
  | .finite a, .inf t => if a = 0 then .nan else .inf (xor (decide (a < 0)) t)
  | .inf s, .finite b => if b = 0 then .nan else .inf (xor s (decide (b < 0)))
  | .inf s, .inf t => .inf (xor s t)
  | .nan, _ => .nan
  | _, .nan => .nan

/-- The `float64` difference `x - y`. -/
def sub64 : FloatVal → FloatVal → FloatVal
  | .finite a, .finite b => binary64.round (a - b)
  | .finite _, .inf t => .inf (!t)
  | .inf s, .finite _ => .inf s
  | .inf s, .inf t => if s = t then .nan else .inf s
  | .nan, _ => .nan
  | _, .nan => .nan

/-- The `float64` quotient `x / y`.  A zero divisor counts as `+0`: the only
zero this program divides by is an underflowed positive power of two. -/
def div64 : FloatVal → FloatVal → FloatVal
  | .finite a, .finite b =>
      if b = 0 then (if a = 0 then .nan else .inf (decide (a < 0)))
      else binary64.round (a / b)
  | .finite _, .inf _ => .finite 0
  | .inf s, .finite b => .inf (xor s (decide (b < 0)))
  | .inf _, .inf _ => .nan
  | .nan, _ => .nan
  | _, .nan => .nan

/-- Go's `math.Pow(2, y)`.  For an integral `y` the library computes the power
of two by repeated squaring of exact powers and a final `Ldexp`, which gives
the correctly rounded `2 ^ y`: `+Inf` from `2 ^ 1024` on, a subnormal down to
`2 ^ (-1074)` and `0` below.  `AsFloat32Buffer` only passes integral exponents
(`exponent_integral`); a non-integral finite `y` is outside this model and
yields NaN. -/
def mathPow2 : FloatVal → FloatVal
  | .finite y =>
      if y.den = 1 then
        if 1023 < y.num then .inf false
        else if y.num < -1075 then .finite 0
        else binary64.round ((2 : ℚ) ^ y.num)
      else .nan
  | .inf s => if s then .finite 0 else .inf false
  | .nan => .nan

/-- The datum is above zero: a positive finite value or `+Inf`. -/
def FloatVal.IsPositive : FloatVal → Prop
  | .finite q => 0 < q
  | .inf s => s = false
  | .nan => False

/-- The datum is below zero: a negative finite value or `-Inf`. -/
def FloatVal.IsNegative : FloatVal → Prop
  | .finite q => q < 0
  | .inf s => s = true
  | .nan => False

/-! ## Buffers -/

/-- A run-time panic. -/
inductive Panic where
  | nilDereference
  | indexOutOfRange
deriving DecidableEq

/-- Modelled from the spec: the declaration of `Format` is not part of
int_buffer.go.  It is the pair (channel count, sample rate); `NumChannels` is
an `int` (int_buffer.go divides `len(buf.Data)` by it), `SampleRate` is taken
as an `int` too. -/
structure Format where
  NumChannels : ℤ
  SampleRate : ℤ
deriving DecidableEq

/-- An audio buffer with its PCM data formatted as int.  `Format` is a pointer
and may be nil (`none`). -/
structure IntBuffer where
  Format : Option Format
  Data : List ℤ
  SourceBitDepth : ℤ
deriving DecidableEq

/-- Modelled from the spec: the declaration of `FloatBuffer` is not part of
int_buffer.go.  It holds a `Format` pointer and the samples as `float64`. -/
structure FloatBuffer where
  Format : Option Format
  Data : List FloatVal
deriving DecidableEq

/-- Modelled from the spec: the declaration of `Float32Buffer` is not part of
int_buffer.go.  It holds a `Format` pointer and the samples as `float32`. -/
structure Float32Buffer where
  Format : Option Format
  Data : List FloatVal
deriving DecidableEq

/-- The range of a 64-bit `int`. -/
def IsInt64 (n : ℤ) : Prop := -2 ^ 63 ≤ n ∧ n ≤ 2 ^ 63 - 1

instance (n : ℤ) : Decidable (IsInt64 n) := by unfold IsInt64; infer_instance

/-- The fresh `&Format{NumChannels: ..., SampleRate: ...}` built from
`buf.Format`; dereferencing a nil `Format` panics. -/
def copyFormat (f : Option Format) : Except Panic Format :=
  match f with
  | none => .error .nilDereference
  | some f => .ok { NumChannels := f.NumChannels, SampleRate := f.SampleRate }

/-- `AsFloatBuffer` returns a copy of this buffer but with data converted to
floats. -/
def AsFloatBuffer (buf : Option IntBuffer) : Except Panic FloatBuffer :=
  match buf with
  | none => .error .nilDereference
  | some buf =>
      match copyFormat buf.Format with
      | .error e => .error e
      | .ok f => .ok { Data := buf.Data.map float64OfInt, Format := some f }

/-- The loop `for _, s := range buf.Data { if s > max { max = s } }`, started
from `max := 0`. -/
def maxSample (data : List ℤ) : ℤ :=
  data.foldl (fun max s => if s > max then s else max) 0

/-- The guess of the bit depth from the largest sample (lines 46 to 61). -/
def guessBitDepth (max : ℤ) : ℤ :=
  let bitDepth := 8
  let bitDepth := if max > 127 then 16 else bitDepth
  let bitDepth := if max > 32767 then 24 else bitDepth
  let bitDepth := if max > 8388607 then 32 else bitDepth
  let bitDepth := if max > 4294967295 then 64 else bitDepth
  bitDepth

/-- The value of `bitDepth` on reaching line 63 of `AsFloat32Buffer`. -/
def bitDepth (buf : IntBuffer) : ℤ :=
  if buf.SourceBitDepth = 0 then guessBitDepth (maxSample buf.Data)
  else buf.SourceBitDepth

/-- The divisor of line 63: `math.Pow(2, 8*float64(bitDepth/8)-1)`.  Go's
integer division truncates toward zero. -/
def factor (bitDepth : ℤ) : FloatVal :=
  mathPow2 (sub64 (mul64 (.finite 8) (float64OfInt (bitDepth.tdiv 8))) (.finite 1))

/-- The sample conversion of line 65:
`float32(float64(int64(buf.Data[i])) / factor)`. -/
def normalize (factor : FloatVal) (s : ℤ) : FloatVal :=
  float32OfFloat64 (div64 (float64OfInt s) factor)

/-- `AsFloat32Buffer` returns a copy of this buffer but with data converted to
float 32. -/
def AsFloat32Buffer (buf : Option IntBuffer) : Except Panic Float32Buffer :=
  match buf with
  | none => .error .nilDereference
  | some buf =>
      match copyFormat buf.Format with
      | .error e => .error e
      | .ok f => .ok { Data := buf.Data.map (normalize (factor (bitDepth buf))), Format := some f }

/-- `NumFrames` returns the number of frames contained in the buffer. -/
def NumFrames (buf : Option IntBuffer) : ℤ :=
  match buf with
  | none => 0
  | some buf =>
      match buf.Format with
      | none => 0
      | some f =>
          let numChannels := if f.NumChannels = 0 then 1 else f.NumChannels
          ((buf.Data.length : ℤ)).tdiv numChannels

/-! ## The store, for `Clone` -/

/-- A Go slice: a window of `len` elements, from `offset` on, of the backing
array at address `array`.  The capacity plays no part in `Clone` and is left
out. -/
structure Slice where
  array : ℕ
  offset : ℕ
  len : ℕ
deriving DecidableEq

/-- The store: the backing arrays of `[]int` slices, by address. -/
abbrev Heap := List (List ℤ)

namespace Heap

/-- The elements a slice denotes. -/
def load (h : Heap) (s : Slice) : List ℤ := ((h.getD s.array []).drop s.offset).take s.len

/-- A slice lies within its backing array. -/
def Valid (h : Heap) (s : Slice) : Prop :=
  s.array < h.length ∧ s.offset + s.len ≤ (h.getD s.array []).length

/-- Go's `make([]int, n)`: a fresh zeroed array and the slice of all of it. -/
def make (h : Heap) (n : ℕ) : Heap × Slice :=
  (h ++ [List.replicate n 0], { array := h.length, offset := 0, len := n })

/-- Go's `copy(dst, src)`: the first `min(len(dst), len(src))` elements of
`src` overwrite those of `dst`. -/
def copy (h : Heap) (dst src : Slice) : Heap :=
  let vals := (h.load src).take dst.len
  let a := h.getD dst.array []
  h.set dst.array (a.take dst.offset ++ vals ++ a.drop (dst.offset + vals.length))

/-- The assignment `s[i] = v`; an index outside the slice panics. -/
def store (h : Heap) (s : Slice) (i : ℕ) (v : ℤ) : Except Panic Heap :=
  if i < s.len then .ok (h.set s.array ((h.getD s.array []).set (s.offset + i) v))
  else .error .indexOutOfRange

end Heap

/-- The `IntBuffer` struct as it lies in memory: `Data` is a slice into the
store. -/
structure IntBufferRef where
  Format : Option Format
  Data : Slice
  SourceBitDepth : ℤ
deriving DecidableEq

/-- The buffer a stored `IntBuffer` denotes in a given store. -/
def IntBufferRef.deref (h : Heap) (b : IntBufferRef) : IntBuffer :=
  { Format := b.Format, Data := h.load b.Data, SourceBitDepth := b.SourceBitDepth }

/-- `Clone` creates a clean clone that can be modified without changing the
source buffer.  The result is the `Buffer` interface value: `none` is nil.
`newB := &IntBuffer{}` leaves `SourceBitDepth` at its zero value. -/
def Clone (h : Heap) (buf : Option IntBufferRef) : Except Panic (Heap × Option IntBufferRef) :=
  match buf with
  | none => .ok (h, none)
  | some buf =>
      let (h1, data) := h.make buf.Data.len
      let h2 := h1.copy data buf.Data
      match copyFormat buf.Format with
      | .error e => .error e
      | .ok f => .ok (h2, some { Data := data, Format := some f, SourceBitDepth := 0 })

/-! ## Rounding lemmas -/

theorem roundHalfEven_intCast (n : ℤ) : roundHalfEven (n : ℚ) = n := by
  simp [roundHalfEven]

theorem roundHalfEven_of_isInt {x : ℚ} (h : ∃ z : ℤ, x = z) : (roundHalfEven x : ℚ) = x := by
  obtain ⟨z, rfl⟩ := h
  rw [roundHalfEven_intCast]

theorem floor_le_roundHalfEven (m : ℚ) : ⌊m⌋ ≤ roundHalfEven m := by
  unfold roundHalfEven
  split_ifs <;> omega

theorem roundHalfEven_le_floor_add_one (m : ℚ) : roundHalfEven m ≤ ⌊m⌋ + 1 := by
  unfold roundHalfEven
  split_ifs <;> omega

theorem roundHalfEven_nonneg {m : ℚ} (h : 0 ≤ m) : 0 ≤ roundHalfEven m :=
  le_trans (Int.floor_nonneg.mpr h) (floor_le_roundHalfEven m)

theorem roundHalfEven_le_of_le {m : ℚ} {N : ℤ} (h : m ≤ N) : roundHalfEven m ≤ N := by
  rcases eq_or_lt_of_le h with h | h
  · rw [h, roundHalfEven_intCast]
  · have : ⌊m⌋ < N := Int.floor_lt.mpr h
    have := roundHalfEven_le_floor_add_one m
    omega

theorem roundHalfEven_eq_of_abs_sub_lt {m : ℚ} {n : ℤ} (h : |m - n| < 1 / 2) :
    roundHalfEven m = n := by
  rw [abs_lt] at h
  obtain ⟨h1, h2⟩ := h
  rcases le_or_lt (n : ℚ) m with hle | hlt
  · have hf : ⌊m⌋ = n := by
      rw [Int.floor_eq_iff]
      constructor
      · exact hle
      · linarith
    unfold roundHalfEven
    rw [hf, if_pos (by linarith)]
  · have hf : ⌊m⌋ = n - 1 := by
      rw [Int.floor_eq_iff]
      push_cast
      constructor <;> linarith
    unfold roundHalfEven
    rw [hf]
    push_cast
    rw [if_neg (by linarith), if_pos (by linarith)]
    ring

namespace FloatFormat

theorem ulp_pos (F : FloatFormat) (a : ℚ) : 0 < F.ulp a := by
  unfold ulp
  positivity

theorem emin_le_exponent (F : FloatFormat) (a : ℚ) : F.emin ≤ F.exponent a :=
  le_max_right _ _

theorem log_le_exponent (F : FloatFormat) (a : ℚ) : Int.log 2 a ≤ F.exponent a :=
  le_max_left _ _

theorem roundMag_zero (F : FloatFormat) : F.roundMag 0 = 0 := by
  simp [roundMag, roundHalfEven]

theorem roundMag_nonneg (F : FloatFormat) {a : ℚ} (h : 0 ≤ a) : 0 ≤ F.roundMag a := by
  unfold roundMag
  apply mul_nonneg _ (F.ulp_pos a).le
  exact_mod_cast roundHalfEven_nonneg (div_nonneg h (F.ulp_pos a).le)

/-- The exponent of a positive magnitude below `2 ^ n` is below `n`, unless
`n` is in the subnormal range. -/
theorem log_lt_of_lt_zpow {a : ℚ} (ha : 0 < a) {n : ℤ} (h : a < 2 ^ n) : Int.log 2 a < n := by
  have := (Int.lt_zpow_iff_log_lt (R := ℚ) (b := 2) (by norm_num) ha (x := n)).mp (by simpa using h)
  exact this

theorem log_le_of_le_zpow {a : ℚ} (ha : 0 < a) {n : ℤ} (h : a ≤ 2 ^ n) : Int.log 2 a ≤ n := by
  have h1 : a < 2 ^ (n + 1) := by
    apply lt_of_le_of_lt h
    exact zpow_lt_zpow_right₀ (by norm_num) (by omega)
  have := log_lt_of_lt_zpow ha h1
  omega

theorem le_log_of_zpow_le {a : ℚ} (ha : 0 < a) {n : ℤ} (h : 2 ^ n ≤ a) : n ≤ Int.log 2 a :=
  (Int.zpow_le_iff_le_log (R := ℚ) (b := 2) (by norm_num) ha (x := n)).mp (by simpa using h)

/-- A magnitude that is an integer multiple of its ulp is left as it is. -/
theorem roundMag_of_isInt (F : FloatFormat) {a : ℚ} (h : ∃ z : ℤ, a / F.ulp a = z) :
    F.roundMag a = a := by
  unfold roundMag
  rw [roundHalfEven_of_isInt h]
  exact div_mul_cancel₀ a (F.ulp_pos a).ne'

/-- An integer times a power of two with a non-negative exponent is an
integer. -/
theorem isInt_mul_zpow (m : ℤ) {j : ℤ} (hj : 0 ≤ j) : ∃ z : ℤ, (m : ℚ) * 2 ^ j = z := by
  obtain ⟨n, rfl⟩ := Int.eq_ofNat_of_zero_le hj
  exact ⟨m * 2 ^ n, by push_cast; rw [zpow_natCast]⟩

/-- Rounding leaves `m * 2 ^ k` with `0 ≤ m < 2 ^ prec` as it is. -/
theorem roundMag_mul_zpow (F : FloatFormat) {m k : ℤ} (hm0 : 0 ≤ m) (hm : m < 2 ^ F.prec)
    (hk : F.emin - ((F.prec : ℤ) - 1) ≤ k) : F.roundMag ((m : ℚ) * 2 ^ k) = (m : ℚ) * 2 ^ k := by
  rcases eq_or_lt_of_le hm0 with h0 | hpos
  · rw [← h0]
    simp [roundMag_zero]
  apply roundMag_of_isInt
  have h2k : (0 : ℚ) < 2 ^ k := by positivity
  have ha : (0 : ℚ) < (m : ℚ) * 2 ^ k := mul_pos (by exact_mod_cast hpos) h2k
  have hlt : (m : ℚ) * 2 ^ k < 2 ^ ((F.prec : ℤ) + k) := by
    rw [zpow_add₀ (by norm_num : (2 : ℚ) ≠ 0)]
    apply mul_lt_mul_of_pos_right _ h2k
    rw [zpow_natCast]
    exact_mod_cast hm
  have hlog := log_lt_of_lt_zpow ha hlt
  have hexp : F.exponent ((m : ℚ) * 2 ^ k) - ((F.prec : ℤ) - 1) ≤ k := by
    unfold exponent
    rcases max_cases (Int.log 2 ((m : ℚ) * 2 ^ k)) F.emin with ⟨h, _⟩ | ⟨h, _⟩ <;> rw [h] <;> omega
  unfold ulp
  rw [mul_div_assoc, ← zpow_sub₀ (by norm_num : (2 : ℚ) ≠ 0)]
  exact isInt_mul_zpow m (by omega)

/-- Rounding leaves `m * 2 ^ k` with `0 ≤ m ≤ 2 ^ prec` as it is. -/
theorem roundMag_mul_zpow_le (F : FloatFormat) (hp : 1 ≤ F.prec) {m k : ℤ} (hm0 : 0 ≤ m)
    (hm : m ≤ 2 ^ F.prec) (hk : F.emin - ((F.prec : ℤ) - 1) ≤ k) :
    F.roundMag ((m : ℚ) * 2 ^ k) = (m : ℚ) * 2 ^ k := by
  rcases eq_or_lt_of_le hm with h | h
  · obtain ⟨p, hp'⟩ : ∃ p : ℕ, F.prec = p + 1 := ⟨F.prec - 1, by omega⟩
    have hq : (m : ℚ) * 2 ^ k = ((2 ^ p : ℤ) : ℚ) * 2 ^ (k + 1) := by
      rw [h, hp', zpow_add₀ (by norm_num : (2 : ℚ) ≠ 0)]
      push_cast
      ring
    rw [hq]
    apply F.roundMag_mul_zpow (by positivity)
    · rw [hp']
      exact pow_lt_pow_right₀ (by norm_num) (by omega)
    · omega
  · exact F.roundMag_mul_zpow hm0 h hk

/-- A representable value is rounded to itself. -/
theorem round_of_representable (F : FloatFormat) (hp : 1 ≤ F.prec) {q : ℚ}
    (h : F.Representable q) : F.round q = .finite q := by
  obtain ⟨m, k, hq, hm, hk, hlt⟩ := h
  have habs : |q| = ((|m| : ℤ) : ℚ) * 2 ^ k := by
    rw [hq, abs_mul, abs_of_pos (by positivity : (0 : ℚ) < 2 ^ k)]
    push_cast
    rfl
  have hmag : F.roundMag |q| = |q| := by
    rw [habs]
    exact F.roundMag_mul_zpow_le hp (abs_nonneg m) hm hk
  unfold round
  rw [hmag, if_neg (not_le.mpr hlt)]
  congr 1
  split_ifs with hneg
  · rw [abs_of_neg hneg, neg_neg]
  · exact abs_of_nonneg (not_lt.mp hneg)

/-- Rounding never carries a magnitude past a power of two of the format
that bounds it. -/
theorem roundMag_le_zpow (F : FloatFormat) (hp : 1 ≤ F.prec) {a : ℚ} (ha : 0 ≤ a) {n : ℤ}
    (hn : F.emin ≤ n) (h : a ≤ 2 ^ n) : F.roundMag a ≤ 2 ^ n := by
  rcases eq_or_lt_of_le ha with h0 | hpos
  · rw [← h0, roundMag_zero]
    positivity
  have hexp : F.exponent a ≤ n := max_le (log_le_of_le_zpow hpos h) hn
  have hj : 0 ≤ n - (F.exponent a - ((F.prec : ℤ) - 1)) := by omega
  obtain ⟨N, hN⟩ := isInt_mul_zpow 1 hj
  have hdiv : a / F.ulp a ≤ (N : ℚ) := by
    rw [← hN, div_le_iff₀ (F.ulp_pos a)]
    unfold ulp
    rw [Int.cast_one, one_mul, ← zpow_add₀ (by norm_num : (2 : ℚ) ≠ 0)]
    simpa using h
  have hr : (roundHalfEven (a / F.ulp a) : ℚ) ≤ (N : ℚ) := by
    exact_mod_cast roundHalfEven_le_of_le hdiv
  calc F.roundMag a = (roundHalfEven (a / F.ulp a) : ℚ) * F.ulp a := rfl
    _ ≤ (N : ℚ) * F.ulp a := mul_le_mul_of_nonneg_right hr (F.ulp_pos a).le
    _ = 2 ^ n := by
        rw [← hN]
        unfold ulp
        rw [Int.cast_one, one_mul, ← zpow_add₀ (by norm_num : (2 : ℚ) ≠ 0)]
        simp

/-- A value of magnitude at most `2 ^ n`, with `n` an exponent of the format,
is rounded to a finite value of magnitude at most `2 ^ n` and of the same
sign. -/
theorem round_abs_le_zpow (F : FloatFormat) (hp : 1 ≤ F.prec) {q : ℚ} {n : ℤ}
    (hn : F.emin ≤ n) (hn' : n ≤ F.emax) (h : |q| ≤ 2 ^ n) :
    ∃ r : ℚ, F.round q = .finite r ∧ |r| ≤ 2 ^ n ∧ (0 ≤ q → 0 ≤ r) ∧ (q ≤ 0 → r ≤ 0) := by
  have hmag := F.roundMag_le_zpow hp (abs_nonneg q) hn h
  have hnn := F.roundMag_nonneg (abs_nonneg q)
  have hlt : F.roundMag |q| < 2 ^ (F.emax + 1) :=
    lt_of_le_of_lt hmag (zpow_lt_zpow_right₀ (by norm_num) (by omega))
  unfold round
  rw [if_neg (not_le.mpr hlt)]
  refine ⟨_, rfl, ?_, ?_, ?_⟩
  · split_ifs
    · rwa [abs_neg, abs_of_nonneg hnn]
    · rwa [abs_of_nonneg hnn]
  · intro h0
    rwa [if_neg (not_lt.mpr h0)]
  · intro h0
    rcases eq_or_lt_of_le h0 with h1 | h1
    · rw [h1]
      simp [roundMag_zero]
    · rw [if_pos h1]
      linarith

/-- Rounding at a known exponent: the magnitude lies in the binade of `e`. -/
theorem roundMag_of_binade (F : FloatFormat) {a : ℚ} {e : ℤ} (he : F.emin ≤ e)
    (h1 : 2 ^ e ≤ a) (h2 : a < 2 ^ (e + 1)) :
    F.roundMag a = (roundHalfEven (a / 2 ^ (e - ((F.prec : ℤ) - 1))) : ℚ) *
      2 ^ (e - ((F.prec : ℤ) - 1)) := by
  have ha : 0 < a := lt_of_lt_of_le (by positivity) h1
  have hlog : Int.log 2 a = e := by
    have := le_log_of_zpow_le ha h1
    have := log_lt_of_lt_zpow ha h2
    omega
  have hexp : F.exponent a = e := by
    unfold exponent
    rw [hlog]
    exact max_eq_left he
  unfold roundMag ulp
  rw [hexp]

end FloatFormat

/-! ## The arithmetic of `AsFloat32Buffer` -/

theorem representable64_intCast {z : ℤ} (h : |z| ≤ 2 ^ 53) : binary64.Representable (z : ℚ) := by
  refine ⟨z, 0, by simp, h, by simp [binary64, FloatFormat.emin], ?_⟩
  have h1 : |(z : ℚ)| ≤ 2 ^ 53 := by exact_mod_cast h
  have h2 : (2 : ℚ) ^ (53 : ℕ) < 2 ^ (binary64.emax + 1) := by
    rw [← zpow_natCast]
    exact zpow_lt_zpow_right₀ (by norm_num) (by simp [binary64])
  exact lt_of_le_of_lt h1 h2

theorem round64_intCast {z : ℤ} (h : |z| ≤ 2 ^ 53) : binary64.round (z : ℚ) = .finite z :=
  binary64.round_of_representable (by simp [binary64]) (representable64_intCast h)

theorem float64OfInt_of_abs_le {s : ℤ} (h : |s| ≤ 2 ^ 53) : float64OfInt s = .finite s :=
  round64_intCast h

/-- The exponent handed to `math.Pow` is `8 * (bitDepth / 8) - 1`, exactly, for
every byte count of magnitude up to `2 ^ 49`. -/
theorem exponent_eq {k : ℤ} (h : |k| ≤ 2 ^ 49) :
    sub64 (mul64 (.finite 8) (float64OfInt k)) (.finite 1) = .finite ((8 * k - 1 : ℤ) : ℚ) := by
  have hk := abs_le.mp h
  have h1 : float64OfInt k = .finite k := float64OfInt_of_abs_le (by omega)
  have h2 : binary64.round ((8 : ℚ) * (k : ℚ)) = .finite ((8 * k : ℤ) : ℚ) := by
    have := round64_intCast (z := 8 * k) (by rw [abs_le]; omega)
    simpa using this
  have h3 : binary64.round ((((8 * k : ℤ) : ℚ)) - 1) = .finite ((8 * k - 1 : ℤ) : ℚ) := by
    have := round64_intCast (z := 8 * k - 1) (by rw [abs_le]; omega)
    simpa using this
  rw [h1]
  show sub64 (binary64.round ((8 : ℚ) * (k : ℚ))) (.finite 1) = _
  rw [h2]
  show binary64.round ((((8 * k : ℤ) : ℚ)) - 1) = _
  rw [h3]

theorem representable64_zpow {j : ℤ} (h1 : -1074 ≤ j) (h2 : j ≤ 1023) :
    binary64.Representable ((2 : ℚ) ^ j) := by
  refine ⟨1, j, by simp, by simp [binary64], by simpa [binary64, FloatFormat.emin] using h1, ?_⟩
  rw [abs_of_pos (by positivity)]
  exact zpow_lt_zpow_right₀ (by norm_num) (by simp [binary64]; omega)

/-- The divisor of line 63 is the power of two `2 ^ (8 * (bitDepth / 8) - 1)`
whenever that power is a `float64`. -/
theorem factor_eq {d : ℤ} (h1 : -134 ≤ d.tdiv 8) (h2 : d.tdiv 8 ≤ 128) :
    factor d = .finite ((2 : ℚ) ^ (8 * d.tdiv 8 - 1)) := by
  unfold factor
  rw [exponent_eq (by rw [abs_le]; omega)]
  unfold mathPow2
  simp only [Rat.intCast_den, Rat.intCast_num, if_true]
  rw [if_neg (by omega), if_neg (by omega)]
  exact binary64.round_of_representable (by simp [binary64])
    (representable64_zpow (by omega) (by omega))

theorem factor_8 : factor 8 = .finite (2 ^ (7 : ℤ)) := factor_eq (d := 8) (by decide) (by decide)

theorem factor_16 : factor 16 = .finite (2 ^ (15 : ℤ)) :=
  factor_eq (d := 16) (by decide) (by decide)

theorem factor_24 : factor 24 = .finite (2 ^ (23 : ℤ)) :=
  factor_eq (d := 24) (by decide) (by decide)

theorem factor_32 : factor 32 = .finite (2 ^ (31 : ℤ)) :=
  factor_eq (d := 32) (by decide) (by decide)

theorem factor_64 : factor 64 = .finite (2 ^ (63 : ℤ)) :=
  factor_eq (d := 64) (by decide) (by decide)

/-- The divisor at each of the five bit depths is `2 ^ (d - 1)`. -/
theorem factor_of_mem {d : ℤ} (hd : d ∈ [8, 16, 24, 32, 64]) :
    factor d = .finite ((2 : ℚ) ^ (d - 1)) := by
  simp only [List.mem_cons, List.mem_singleton, List.not_mem_nil, or_false] at hd
  rcases hd with rfl | rfl | rfl | rfl | rfl
  · exact factor_8
  · exact factor_16
  · exact factor_24
  · exact factor_32
  · exact factor_64

theorem div64_finite_zpow (x : ℚ) (j : ℤ) :
    div64 (.finite x) (.finite ((2 : ℚ) ^ j)) = binary64.round (x / 2 ^ j) := by
  have h : (2 : ℚ) ^ j ≠ 0 := by positivity
  simp [div64, h]

theorem one_le_two_zpow {j : ℤ} (hj : 0 ≤ j) : (1 : ℚ) ≤ 2 ^ j :=
  one_le_zpow₀ (by norm_num) hj

/-- A sample with at most 24 significant bits is divided exactly: neither the
conversion to `float64`, nor the division by `2 ^ j`, nor the conversion to
`float32` rounds. -/
theorem normalize_exact {j : ℤ} (hj0 : 0 ≤ j) (hj : j ≤ 63) {s m : ℤ} {t : ℕ}
    (hs : s = m * 2 ^ t) (hm : |m| ≤ 2 ^ 24) (h64 : |s| ≤ 2 ^ 63) :
    normalize (.finite ((2 : ℚ) ^ j)) s = .finite ((s : ℚ) / 2 ^ j) := by
  have hsq : (s : ℚ) = (m : ℚ) * 2 ^ (t : ℤ) := by
    rw [hs, zpow_natCast]
    push_cast
    rfl
  have habs : |(s : ℚ)| ≤ 2 ^ (63 : ℤ) := by
    have : |(s : ℚ)| ≤ ((2 ^ 63 : ℤ) : ℚ) := by exact_mod_cast h64
    exact le_trans this (by norm_num)
  have hquot : (s : ℚ) / 2 ^ j = (m : ℚ) * 2 ^ ((t : ℤ) - j) := by
    rw [hsq, zpow_sub₀ (by norm_num : (2 : ℚ) ≠ 0)]
    ring
  have habsq : |(s : ℚ) / 2 ^ j| ≤ 2 ^ (63 : ℤ) := by
    rw [abs_div, abs_of_pos (by positivity : (0 : ℚ) < 2 ^ j)]
    exact le_trans (div_le_self (abs_nonneg _) (one_le_two_zpow hj0)) habs
  have h1 : float64OfInt s = .finite s := by
    apply binary64.round_of_representable (by simp [binary64])
    refine ⟨m, t, hsq, le_trans hm (by norm_num [binary64]), ?_, ?_⟩
    · simp only [binary64, FloatFormat.emin]
      omega
    · exact lt_of_le_of_lt habs (zpow_lt_zpow_right₀ (by norm_num) (by simp [binary64]))
  have h2 : binary64.round ((s : ℚ) / 2 ^ j) = .finite ((s : ℚ) / 2 ^ j) := by
    apply binary64.round_of_representable (by simp [binary64])
    refine ⟨m, (t : ℤ) - j, hquot, le_trans hm (by norm_num [binary64]), ?_, ?_⟩
    · simp only [binary64, FloatFormat.emin]
      omega
    · exact lt_of_le_of_lt habsq (zpow_lt_zpow_right₀ (by norm_num) (by simp [binary64]))
  have h3 : binary32.round ((s : ℚ) / 2 ^ j) = .finite ((s : ℚ) / 2 ^ j) := by
    apply binary32.round_of_representable (by simp [binary32])
    refine ⟨m, (t : ℤ) - j, hquot, by simpa [binary32] using hm, ?_, ?_⟩
    · simp only [binary32, FloatFormat.emin]
      omega
    · exact lt_of_le_of_lt habsq (zpow_lt_zpow_right₀ (by norm_num) (by simp [binary32]))
  unfold normalize
  rw [h1, div64_finite_zpow, h2]
  exact h3

/-- A sample of magnitude at most the divisor `2 ^ j` is mapped into
`[-1, 1]`, on the side of its sign. -/
theorem normalize_abs_le {j : ℤ} (hj0 : 0 ≤ j) (hj : j ≤ 63) {s : ℤ} (hs : |s| ≤ 2 ^ j.toNat) :
    ∃ r : ℚ, normalize (.finite ((2 : ℚ) ^ j)) s = .finite r ∧ |r| ≤ 1 ∧
      (0 ≤ s → 0 ≤ r) ∧ (s ≤ 0 → r ≤ 0) := by
  have hsq : |(s : ℚ)| ≤ 2 ^ j := by
    have : |(s : ℚ)| ≤ ((2 ^ j.toNat : ℤ) : ℚ) := by exact_mod_cast hs
    rw [Int.cast_pow, ← zpow_natCast, Int.toNat_of_nonneg hj0] at this
    simpa using this
  obtain ⟨x, hx, hxabs, hxpos, hxneg⟩ := binary64.round_abs_le_zpow (by simp [binary64])
    (by simp only [binary64, FloatFormat.emin]; omega) (by simp only [binary64]; omega) hsq
  have h2j : (0 : ℚ) < 2 ^ j := by positivity
  have hq : |x / 2 ^ j| ≤ 2 ^ (0 : ℤ) := by
    rw [abs_div, abs_of_pos h2j, zpow_zero]
    exact (div_le_one h2j).mpr hxabs
  obtain ⟨y, hy, hyabs, hypos, hyneg⟩ := binary64.round_abs_le_zpow (by simp [binary64])
    (by simp [binary64, FloatFormat.emin]) (by simp [binary64]) hq
  obtain ⟨z, hz, hzabs, hzpos, hzneg⟩ := binary32.round_abs_le_zpow (by simp [binary32])
    (by simp [binary32, FloatFormat.emin]) (by simp [binary32]) hyabs
  refine ⟨z, ?_, by simpa using hzabs, ?_, ?_⟩
  · unfold normalize float64OfInt
    rw [hx, div64_finite_zpow, hy]
    exact hz
  · intro h
    exact hzpos (hypos (div_nonneg (hxpos (by exact_mod_cast h)) h2j.le))
  · intro h
    exact hzneg (hyneg (div_nonpos_of_nonpos_of_nonneg (hxneg (by exact_mod_cast h)) h2j.le))

/-- Rounding of a positive value at a known exponent `e` to a known multiple
`n` of the ulp. -/
theorem FloatFormat.round_of_binade (F : FloatFormat) {q : ℚ} {e n : ℤ} (he : F.emin ≤ e)
    (h1 : 2 ^ e ≤ q) (h2 : q < 2 ^ (e + 1))
    (hn : |q / 2 ^ (e - ((F.prec : ℤ) - 1)) - n| < 1 / 2)
    (hlt : (n : ℚ) * 2 ^ (e - ((F.prec : ℤ) - 1)) < 2 ^ (F.emax + 1)) :
    F.round q = .finite ((n : ℚ) * 2 ^ (e - ((F.prec : ℤ) - 1))) := by
  have hq : 0 < q := lt_of_lt_of_le (by positivity) h1
  have hmag : F.roundMag |q| = (n : ℚ) * 2 ^ (e - ((F.prec : ℤ) - 1)) := by
    rw [abs_of_pos hq, F.roundMag_of_binade he h1 h2, roundHalfEven_eq_of_abs_sub_lt hn]
  unfold FloatFormat.round
  rw [hmag, if_neg (not_le.mpr hlt), if_neg (not_lt.mpr hq.le)]

theorem round32_one : binary32.round 1 = .finite 1 := by
  apply binary32.round_of_representable (by simp [binary32])
  exact ⟨1, 0, by simp, by simp [binary32], by simp [binary32, FloatFormat.emin],
    by simp [binary32]; norm_num⟩

theorem round64_one : binary64.round 1 = .finite 1 := by
  apply binary64.round_of_representable (by simp [binary64])
  exact ⟨1, 0, by simp, by simp [binary64], by simp [binary64, FloatFormat.emin],
    by simp [binary64]; norm_num⟩

/-- At 32 bits, `33554433 = 2 ^ 25 + 1` loses its last bit in the conversion
to `float32`. -/
theorem normalize_32_inexact :
    normalize (.finite ((2 : ℚ) ^ (31 : ℤ))) 33554433 = .finite (33554432 / 2 ^ 31) := by
  have h1 : float64OfInt 33554433 = .finite ((33554433 : ℤ) : ℚ) :=
    float64OfInt_of_abs_le (by decide)
  have h2 : binary64.round (((33554433 : ℤ) : ℚ) / 2 ^ (31 : ℤ)) =
      .finite (33554433 / 2 ^ 31) := by
    have := binary64.round_of_representable (by simp [binary64])
      (q := ((33554433 : ℤ) : ℚ) / 2 ^ (31 : ℤ))
      ⟨33554433, -31, by norm_num, by norm_num [binary64], by simp [binary64, FloatFormat.emin],
        by norm_num [binary64, abs_of_pos]⟩
    rw [this]
    norm_num
  have h3 : binary32.round (33554433 / 2 ^ 31) = .finite (33554432 / 2 ^ 31) := by
    have := binary32.round_of_binade (q := 33554433 / 2 ^ 31) (e := -6) (n := 8388608)
      (by simp [binary32, FloatFormat.emin]) (by norm_num) (by norm_num)
      (by norm_num [binary32, abs_lt]) (by norm_num [binary32])
    rw [this]
    norm_num [binary32]
  unfold normalize
  rw [h1, div64_finite_zpow, h2]
  exact h3

/-- At 32 bits the largest sample `2 ^ 31 - 1` is rounded up to `1` by the
conversion to `float32`. -/
theorem normalize_32_max : normalize (.finite ((2 : ℚ) ^ (31 : ℤ))) 2147483647 = .finite 1 := by
  have h1 : float64OfInt 2147483647 = .finite ((2147483647 : ℤ) : ℚ) :=
    float64OfInt_of_abs_le (by decide)
  have h2 : binary64.round (((2147483647 : ℤ) : ℚ) / 2 ^ (31 : ℤ)) =
      .finite (2147483647 / 2 ^ 31) := by
    have := binary64.round_of_representable (by simp [binary64])
      (q := ((2147483647 : ℤ) : ℚ) / 2 ^ (31 : ℤ))
      ⟨2147483647, -31, by norm_num, by norm_num [binary64], by simp [binary64, FloatFormat.emin],
        by norm_num [binary64, abs_of_pos]⟩
    rw [this]
    norm_num
  have h3 : binary32.round (2147483647 / 2 ^ 31) = .finite 1 := by
    have := binary32.round_of_binade (q := 2147483647 / 2 ^ 31) (e := -1) (n := 16777216)
      (by simp [binary32, FloatFormat.emin]) (by norm_num) (by norm_num)
      (by norm_num [binary32, abs_lt]) (by norm_num [binary32])
    rw [this]
    norm_num [binary32]
  unfold normalize
  rw [h1, div64_finite_zpow, h2]
  exact h3

/-- The largest `int64` is not a `float64`: the conversion rounds it up to
`2 ^ 63`. -/
theorem float64OfInt_maxInt64 :
    float64OfInt 9223372036854775807 = .finite ((2 : ℚ) ^ (63 : ℤ)) := by
  have := binary64.round_of_binade (q := ((9223372036854775807 : ℤ) : ℚ)) (e := 62)
    (n := 9007199254740992)
    (by simp [binary64, FloatFormat.emin]) (by norm_num) (by norm_num)
    (by norm_num [binary64, abs_lt]) (by norm_num [binary64])
  unfold float64OfInt
  rw [this]
  norm_num [binary64]

/-- At 64 bits the largest sample `2 ^ 63 - 1` is mapped to `1`. -/
theorem normalize_64_max :
    normalize (.finite ((2 : ℚ) ^ (63 : ℤ))) 9223372036854775807 = .finite 1 := by
  unfold normalize
  rw [float64OfInt_maxInt64, div64_finite_zpow, div_self (by positivity), round64_one]
  exact round32_one

theorem factor_2 : factor 2 = .finite ((2 : ℚ) ^ (-1 : ℤ)) :=
  factor_eq (d := 2) (by decide) (by decide)

/-- With the divisor `2 ^ (-1)` the sample `-32768` is doubled. -/
theorem normalize_half : normalize (.finite ((2 : ℚ) ^ (-1 : ℤ))) (-32768) = .finite (-65536) := by
  have h1 : float64OfInt (-32768) = .finite ((-32768 : ℤ) : ℚ) :=
    float64OfInt_of_abs_le (by decide)
  have h2 : binary64.round (((-32768 : ℤ) : ℚ) / 2 ^ (-1 : ℤ)) = .finite (-65536) := by
    have := round64_intCast (z := -65536) (by decide)
    have hq : ((-32768 : ℤ) : ℚ) / 2 ^ (-1 : ℤ) = ((-65536 : ℤ) : ℚ) := by norm_num
    rw [hq, this]
    norm_num
  have h3 : binary32.round (-65536) = .finite (-65536) := by
    apply binary32.round_of_representable (by simp [binary32])
    exact ⟨-65536, 0, by norm_num, by norm_num [binary32], by simp [binary32, FloatFormat.emin],
      by norm_num [binary32]⟩
  unfold normalize
  rw [h1, div64_finite_zpow, h2]
  exact h3

/-- The conversion of an integer of magnitude at most `2 ^ n` to `float64` is
a finite integer of magnitude at most `2 ^ n`. -/
theorem round64_intCast_isInt {z : ℤ} {n : ℕ} (hn : n ≤ 1023) (h : |z| ≤ 2 ^ n) :
    ∃ w : ℤ, binary64.round (z : ℚ) = .finite (w : ℚ) ∧ |w| ≤ 2 ^ n := by
  rcases le_or_lt |z| (2 ^ 53) with hsmall | hbig
  · exact ⟨z, round64_intCast hsmall, h⟩
  have hq : |(z : ℚ)| ≤ 2 ^ (n : ℤ) := by
    rw [zpow_natCast]
    exact_mod_cast h
  obtain ⟨r, hr, habs, _, _⟩ := binary64.round_abs_le_zpow (by simp [binary64])
    (by simp only [binary64, FloatFormat.emin]; omega) (by simp only [binary64]; omega) hq
  have hpos : (0 : ℚ) < |(z : ℚ)| := by
    have : (0 : ℤ) < |z| := lt_trans (by positivity) hbig
    exact_mod_cast this
  have hlog : (53 : ℤ) ≤ Int.log 2 |(z : ℚ)| := by
    apply FloatFormat.le_log_of_zpow_le hpos
    have : ((2 ^ 53 : ℤ) : ℚ) ≤ |(z : ℚ)| := by exact_mod_cast hbig.le
    exact le_trans (by norm_num) this
  have hexp : 0 ≤ binary64.exponent |(z : ℚ)| - (((binary64.prec : ℕ) : ℤ) - 1) := by
    have := binary64.log_le_exponent |(z : ℚ)|
    simp only [binary64] at this ⊢
    omega
  obtain ⟨u, hu⟩ := FloatFormat.isInt_mul_zpow 1 hexp
  have hmag : binary64.roundMag |(z : ℚ)| =
      ((roundHalfEven (|(z : ℚ)| / binary64.ulp |(z : ℚ)|) * u : ℤ) : ℚ) := by
    unfold FloatFormat.roundMag
    rw [Int.cast_mul, ← hu, Int.cast_one, one_mul]
    rfl
  have hfin : ∃ w : ℤ, r = (w : ℚ) := by
    unfold FloatFormat.round at hr
    split_ifs at hr with h1 h2
    · injection hr with hr
      exact ⟨-(roundHalfEven (|(z : ℚ)| / binary64.ulp |(z : ℚ)|) * u), by
        rw [← hr, hmag]
        push_cast
        rfl⟩
    · injection hr with hr
      exact ⟨roundHalfEven (|(z : ℚ)| / binary64.ulp |(z : ℚ)|) * u, by rw [← hr, hmag]⟩
  obtain ⟨w, rfl⟩ := hfin
  refine ⟨w, hr, ?_⟩
  rw [zpow_natCast] at habs
  exact_mod_cast habs

/-- The exponent handed to `math.Pow` on line 63 is a finite integer for every
64-bit `bitDepth`: `mathPow2` is only ever applied to an integral exponent. -/
theorem exponent_integral {d : ℤ} (hd : IsInt64 d) :
    ∃ w : ℤ, sub64 (mul64 (.finite 8) (float64OfInt (d.tdiv 8))) (.finite 1) = .finite (w : ℚ) := by
  obtain ⟨hd1, hd2⟩ := hd
  have hk : |d.tdiv 8| ≤ 2 ^ 60 := by
    rcases le_or_lt 0 d with h0 | h0
    · rw [Int.tdiv_eq_ediv h0 (by norm_num), abs_le]
      constructor <;> omega
    · have hneg : d.tdiv 8 = -((-d) / 8) := by
        rw [← Int.tdiv_eq_ediv (by omega) (by norm_num), Int.neg_tdiv, neg_neg]
      rw [hneg, abs_le]
      constructor <;> omega
  obtain ⟨x, hx, hxabs⟩ := round64_intCast_isInt (n := 60) (by norm_num) hk
  have hx8 : |8 * x| ≤ 2 ^ 63 := by
    rw [abs_le] at hxabs ⊢
    constructor <;> omega
  obtain ⟨y, hy, hyabs⟩ := round64_intCast_isInt (n := 63) (by norm_num) hx8
  have hy1 : |y - 1| ≤ 2 ^ 64 := by
    rw [abs_le] at hyabs ⊢
    constructor <;> omega
  obtain ⟨w, hw, _⟩ := round64_intCast_isInt (n := 64) (by norm_num) hy1
  refine ⟨w, ?_⟩
  unfold float64OfInt
  rw [hx]
  show sub64 (binary64.round ((8 : ℚ) * (x : ℚ))) (.finite 1) = _
  have e1 : (8 : ℚ) * (x : ℚ) = ((8 * x : ℤ) : ℚ) := by push_cast; rfl
  rw [e1, hy]
  show binary64.round ((y : ℚ) - 1) = _
  have e2 : (y : ℚ) - 1 = ((y - 1 : ℤ) : ℚ) := by push_cast; rfl
  rw [e2, hw]

/-! ## The scan for the largest sample -/

theorem foldl_max_ge_init (data : List ℤ) (init : ℤ) :
    init ≤ data.foldl (fun max s => if s > max then s else max) init := by
  induction data generalizing init with
  | nil => simp
  | cons a l ih =>
    simp only [List.foldl_cons]
    split_ifs with h
    · exact le_trans (le_of_lt h) (ih a)
    · exact ih init

theorem foldl_max_ge_mem (data : List ℤ) (init : ℤ) :
    ∀ s ∈ data, s ≤ data.foldl (fun max s => if s > max then s else max) init := by
  induction data generalizing init with
  | nil => simp
  | cons a l ih =>
    intro s hs
    simp only [List.foldl_cons]
    rcases List.mem_cons.mp hs with rfl | hs
    · split_ifs with h
      · exact foldl_max_ge_init l s
      · exact le_trans (not_lt.mp h) (foldl_max_ge_init l init)
    · exact ih _ s hs

theorem foldl_max_eq_or_mem (data : List ℤ) (init : ℤ) :
    data.foldl (fun max s => if s > max then s else max) init = init ∨
      data.foldl (fun max s => if s > max then s else max) init ∈ data := by
  induction data generalizing init with
  | nil => simp
  | cons a l ih =>
    simp only [List.foldl_cons]
    split_ifs with h
    · rcases ih a with h1 | h1
      · right
        rw [h1]
        exact List.mem_cons_self _ _
      · right
        exact List.mem_cons_of_mem _ h1
    · rcases ih init with h1 | h1
      · left
        exact h1
      · right
        exact List.mem_cons_of_mem _ h1

/-- The scan computes the largest sample, taken as `0` when no sample is
positive: it is the only `m` that is `0` or a sample, is not negative and
bounds every sample. -/
theorem maxSample_eq {data : List ℤ} {m : ℤ} (h0 : m = 0 ∨ m ∈ data) (hnn : 0 ≤ m)
    (hub : ∀ s ∈ data, s ≤ m) : maxSample data = m := by
  unfold maxSample
  apply le_antisymm
  · rcases foldl_max_eq_or_mem data 0 with h | h
    · rw [h]
      exact hnn
    · exact hub _ h
  · rcases h0 with rfl | h
    · exact foldl_max_ge_init data 0
    · exact foldl_max_ge_mem data 0 m h

theorem maxSample_filter_nonneg (data : List ℤ) :
    maxSample (data.filter (fun s => decide (0 ≤ s))) = maxSample data := by
  apply maxSample_eq
  · rcases foldl_max_eq_or_mem data 0 with h | h
    · left
      exact h
    · right
      rw [List.mem_filter]
      exact ⟨h, by simpa using foldl_max_ge_init data 0⟩
  · exact foldl_max_ge_init data 0
  · intro s hs
    exact foldl_max_ge_mem data 0 s (List.mem_filter.mp hs).1

/-! ## Helper facts on the buffers -/

theorem AsFloat32Buffer_ok {buf : IntBuffer} {f : Format} (hf : buf.Format = some f) :
    AsFloat32Buffer (some buf) =
      .ok { Data := buf.Data.map (normalize (factor (bitDepth buf))), Format := some f } := by
  simp [AsFloat32Buffer, copyFormat, hf]

theorem AsFloatBuffer_ok {buf : IntBuffer} {f : Format} (hf : buf.Format = some f) :
    AsFloatBuffer (some buf) = .ok { Data := buf.Data.map float64OfInt, Format := some f } := by
  simp [AsFloatBuffer, copyFormat, hf]

theorem factor_natCast {d : ℕ} (hd : d ∈ [8, 16, 24, 32, 64]) :
    factor (d : ℤ) = .finite ((2 : ℚ) ^ (d - 1)) := by
  have h := factor_of_mem (d := (d : ℤ)) (by
    simp only [List.mem_cons, List.mem_singleton, List.not_mem_nil, or_false] at hd ⊢
    omega)
  have hd1 : 1 ≤ d := by
    simp only [List.mem_cons, List.mem_singleton, List.not_mem_nil, or_false] at hd
    omega
  rw [h, ← zpow_natCast, Nat.cast_sub hd1, Nat.cast_one]

theorem depth_le_of_mem {d : ℕ} (hd : d ∈ [8, 16, 24, 32, 64]) : 1 ≤ d ∧ d - 1 ≤ 63 := by
  simp only [List.mem_cons, List.mem_singleton, List.not_mem_nil, or_false] at hd
  omega

theorem normalize_exact_nat {j : ℕ} (hj : j ≤ 63) {s m : ℤ} {t : ℕ}
    (hs : s = m * 2 ^ t) (hm : |m| ≤ 2 ^ 24) (h64 : IsInt64 s) :
    normalize (.finite ((2 : ℚ) ^ j)) s = .finite ((s : ℚ) / 2 ^ j) := by
  have h := normalize_exact (j := (j : ℤ)) (by omega) (by omega) hs hm
    (by rw [abs_le]; obtain ⟨h1, h2⟩ := h64; constructor <;> omega)
  rwa [zpow_natCast] at h

theorem normalize_abs_le_nat {j : ℕ} (hj : j ≤ 63) {s : ℤ} (hs : |s| ≤ 2 ^ j) :
    ∃ r : ℚ, normalize (.finite ((2 : ℚ) ^ j)) s = .finite r ∧ |r| ≤ 1 ∧
      (0 ≤ s → 0 ≤ r) ∧ (s ≤ 0 → r ≤ 0) := by
  have h := normalize_abs_le (j := (j : ℤ)) (by omega) (by omega) (by simpa using hs)
  rwa [zpow_natCast] at h

/-! ## The specification, claim by claim -/

/-- C1: with `SourceBitDepth` 0 the bit depth `AsFloat32Buffer` works with is
the bucket of the largest sample `m` (`0` when `Data` is empty or holds no
positive sample): 8 up to 127, 16 up to 32767, 24 up to 8388607, 32 up to
4294967295 and 64 above.  Dropping the negative samples does not change it. -/
theorem bitDepth_inferred_buckets (buf : IntBuffer) (m : ℤ) (h0 : buf.SourceBitDepth = 0)
    (hm : m = 0 ∨ m ∈ buf.Data) (hnn : 0 ≤ m) (hub : ∀ s ∈ buf.Data, s ≤ m) :
    (m ≤ 127 → bitDepth buf = 8) ∧
    (128 ≤ m → m ≤ 32767 → bitDepth buf = 16) ∧
    (32768 ≤ m → m ≤ 8388607 → bitDepth buf = 24) ∧
    (8388608 ≤ m → m ≤ 4294967295 → bitDepth buf = 32) ∧
    (4294967295 < m → bitDepth buf = 64) ∧
    bitDepth { buf with Data := buf.Data.filter (fun s => decide (0 ≤ s)) } = bitDepth buf ∧
    (∀ out, AsFloat32Buffer (some buf) = .ok out →
      out.Data = buf.Data.map (normalize (factor (bitDepth buf)))) := by
  have hmax : maxSample buf.Data = m := maxSample_eq hm hnn hub
  have hb : bitDepth buf = guessBitDepth m := by
    unfold bitDepth
    rw [if_pos h0, hmax]
  refine ⟨?_, ?_, ?_, ?_, ?_, ?_, ?_⟩
  · intro h
    rw [hb]
    unfold guessBitDepth
    simp only
    rw [if_neg (by omega), if_neg (by omega), if_neg (by omega), if_neg (by omega)]
  · intro h1 h2
    rw [hb]
    unfold guessBitDepth
    simp only
    rw [if_neg (by omega), if_neg (by omega), if_neg (by omega), if_pos (by omega)]
  · intro h1 h2
    rw [hb]
    unfold guessBitDepth
    simp only
    rw [if_neg (by omega), if_neg (by omega), if_pos (by omega)]
  · intro h1 h2
    rw [hb]
    unfold guessBitDepth
    simp only
    rw [if_neg (by omega), if_pos (by omega)]
  · intro h
    rw [hb]
    unfold guessBitDepth
    simp only
    rw [if_pos (by omega)]
  · unfold bitDepth
    simp only [h0, if_true]
    rw [maxSample_filter_nonneg]
  · intro out hout
    cases hfmt : buf.Format with
    | none => simp [AsFloat32Buffer, copyFormat, hfmt] at hout
    | some f =>
      rw [AsFloat32Buffer_ok hfmt] at hout
      cases hout
      rfl

/-- Witness of C1 on the samples `[-5, 32768, 3]`: the largest one, 32768, is
in the 24-bit bucket. -/
theorem bitDepth_inferred_buckets_witness :
    ((32768 : ℤ) = 0 ∨ (32768 : ℤ) ∈ [-5, 32768, 3]) ∧ (0 : ℤ) ≤ 32768 ∧
      (∀ s ∈ ([-5, 32768, 3] : List ℤ), s ≤ 32768) ∧
      bitDepth ⟨some ⟨2, 44100⟩, [-5, 32768, 3], 0⟩ = 24 :=
  ⟨by decide, by decide, by decide,
    (bitDepth_inferred_buckets ⟨some ⟨2, 44100⟩, [-5, 32768, 3], 0⟩ 32768 rfl (by decide)
      (by decide) (by decide)).2.2.1 (by decide) (by decide)⟩

/-- Counterexample to C2 as stated: at the declared depth 32 the sample
`33554433 = 2 ^ 25 + 1` is not mapped to `33554433 / 2 ^ 31` but to
`33554432 / 2 ^ 31`, the nearest `float32`. -/
theorem AsFloat32Buffer_quotient_inexact :
    AsFloat32Buffer (some ⟨some ⟨1, 44100⟩, [33554433], 32⟩) =
        .ok ⟨some ⟨1, 44100⟩, [.finite (33554432 / 2 ^ 31)]⟩ ∧
      (FloatVal.finite (33554432 / 2 ^ 31) ≠ .finite ((33554433 : ℤ) / 2 ^ (32 - 1))) := by
  constructor
  · rw [AsFloat32Buffer_ok rfl]
    have hb : bitDepth ⟨some ⟨1, 44100⟩, [33554433], 32⟩ = 32 := by decide
    simp only [hb, factor_32, List.map_cons, List.map_nil, normalize_32_inexact]
  · intro h
    injection h with h
    norm_num at h

/-- C2 (amended): with a present `Format` and a bit depth in use `d` among
8, 16, 24, 32, 64, `AsFloat32Buffer` returns as many samples as it was given;
element `i` is `float32(float64(Data[i]) / 2 ^ (d - 1))`, which is exactly
`Data[i] / 2 ^ (d - 1)` whenever `Data[i]` has at most 24 significant bits
(`Data[i] = m * 2 ^ t` with `|m| ≤ 2 ^ 24`).  At `d = 16` the sample -32768
gives -1 and 32767 gives 32767/32768. -/
theorem AsFloat32Buffer_quotient (buf : IntBuffer) (f : Format) (d : ℕ)
    (hf : buf.Format = some f) (hd : d ∈ [8, 16, 24, 32, 64]) (hb : bitDepth buf = d) :
    ∃ out, AsFloat32Buffer (some buf) = .ok out ∧
      out.Data.length = buf.Data.length ∧
      (∀ (i : ℕ) (s : ℤ), buf.Data[i]? = some s →
        out.Data[i]? =
          some (float32OfFloat64 (div64 (float64OfInt s) (.finite ((2 : ℚ) ^ (d - 1)))))) ∧
      (∀ (i : ℕ) (s m : ℤ) (t : ℕ), buf.Data[i]? = some s → IsInt64 s →
        s = m * 2 ^ t → |m| ≤ 2 ^ 24 →
        out.Data[i]? = some (.finite ((s : ℚ) / 2 ^ (d - 1)))) ∧
      (d = 16 → ∀ i : ℕ,
        (buf.Data[i]? = some (-32768) → out.Data[i]? = some (.finite (-1))) ∧
        (buf.Data[i]? = some 32767 → out.Data[i]? = some (.finite (32767 / 32768)))) := by
  refine ⟨_, AsFloat32Buffer_ok hf, by simp, ?_, ?_, ?_⟩
  · intro i s hs
    simp only [List.getElem?_map, hs, Option.map_some', hb, factor_natCast hd]
    rfl
  · intro i s m t hs h64 hsm hm
    simp only [List.getElem?_map, hs, Option.map_some', hb, factor_natCast hd]
    rw [normalize_exact_nat (depth_le_of_mem hd).2 hsm hm h64]
  · intro h16 i
    subst h16
    constructor
    · intro hs
      simp only [List.getElem?_map, hs, Option.map_some', hb, factor_natCast hd]
      rw [normalize_exact_nat (m := -32768) (t := 0) (by norm_num) (by norm_num) (by decide)
        (by decide)]
      norm_num
    · intro hs
      simp only [List.getElem?_map, hs, Option.map_some', hb, factor_natCast hd]
      rw [normalize_exact_nat (m := 32767) (t := 0) (by norm_num) (by norm_num) (by decide)
        (by decide)]
      norm_num

/-- Witness of C2 (amended) on a 16-bit buffer. -/
theorem AsFloat32Buffer_quotient_witness :
    (16 : ℕ) ∈ [8, 16, 24, 32, 64] ∧
      bitDepth ⟨some ⟨2, 44100⟩, [-32768, 32767], 16⟩ = (16 : ℕ) ∧
      ∃ out, AsFloat32Buffer (some ⟨some ⟨2, 44100⟩, [-32768, 32767], 16⟩) = .ok out ∧
        out.Data.length = 2 ∧ out.Data[0]? = some (.finite (-1)) :=
  ⟨by decide, by decide, by
    obtain ⟨out, h1, h2, _, _, h5⟩ := AsFloat32Buffer_quotient
      ⟨some ⟨2, 44100⟩, [-32768, 32767], 16⟩ ⟨2, 44100⟩ 16 rfl (by decide) (by decide)
    exact ⟨out, h1, h2, (h5 rfl 0).1 rfl⟩⟩

/-- Counterexample to C3 as stated: at the declared depth 32 the most positive
sample `2 ^ 31 - 1` is mapped to exactly `1`, not to a value below `1`. -/
theorem AsFloat32Buffer_max_not_below_one :
    AsFloat32Buffer (some ⟨some ⟨1, 44100⟩, [2 ^ (32 - 1) - 1], 32⟩) =
        .ok ⟨some ⟨1, 44100⟩, [.finite 1]⟩ ∧ ¬ ((1 : ℚ) < 1) := by
  constructor
  · have hs : (2 : ℤ) ^ (32 - 1) - 1 = 2147483647 := by norm_num
    rw [hs, AsFloat32Buffer_ok rfl]
    have hb : bitDepth ⟨some ⟨1, 44100⟩, [2147483647], 32⟩ = 32 := by decide
    simp only [hb, factor_32, List.map_cons, List.map_nil, normalize_32_max]
  · norm_num

/-- C3 (amended): at a declared depth `d` among 8, 16, 24, 32, 64, with every
sample in the signed range of `d`, every output lies in `[-1, 1]`; the most
negative sample `-2 ^ (d - 1)` gives exactly `-1`; the most positive sample
`2 ^ (d - 1) - 1` gives a value below `1` at 8, 16 and 24 bits and exactly `1`
at 32 and 64 bits, where it is not a `float32`. -/
theorem AsFloat32Buffer_declared_range (buf : IntBuffer) (f : Format) (d : ℕ)
    (hf : buf.Format = some f) (hd : d ∈ [8, 16, 24, 32, 64]) (hdecl : buf.SourceBitDepth = d)
    (hrange : ∀ s ∈ buf.Data, -2 ^ (d - 1) ≤ s ∧ s ≤ 2 ^ (d - 1) - 1) :
    ∃ out, AsFloat32Buffer (some buf) = .ok out ∧
      (∀ x ∈ out.Data, ∃ r : ℚ, x = .finite r ∧ -1 ≤ r ∧ r ≤ 1) ∧
      (∀ i : ℕ, buf.Data[i]? = some (-2 ^ (d - 1)) → out.Data[i]? = some (.finite (-1))) ∧
      (∀ i : ℕ, buf.Data[i]? = some (2 ^ (d - 1) - 1) →
        ∃ r : ℚ, out.Data[i]? = some (.finite r) ∧ (d ≤ 24 → r < 1) ∧ (32 ≤ d → r = 1)) := by
  have hd1 := depth_le_of_mem hd
  have hb : bitDepth buf = d := by
    unfold bitDepth
    rw [if_neg (by rw [hdecl]; omega), hdecl]
  have hpow : (2 : ℤ) ^ (d - 1) ≤ 2 ^ 63 := pow_le_pow_right₀ (by norm_num) hd1.2
  have hpos : (0 : ℤ) < 2 ^ (d - 1) := by positivity
  refine ⟨_, AsFloat32Buffer_ok hf, ?_, ?_, ?_⟩
  · intro x hx
    simp only [List.mem_map, hb, factor_natCast hd] at hx
    obtain ⟨s, hs, rfl⟩ := hx
    obtain ⟨h1, h2⟩ := hrange s hs
    obtain ⟨r, hr, habs, _, _⟩ := normalize_abs_le_nat (j := d - 1) hd1.2 (s := s)
      (by rw [abs_le]; constructor <;> omega)
    exact ⟨r, hr, (abs_le.mp habs).1, (abs_le.mp habs).2⟩
  · intro i hs
    simp only [List.getElem?_map, hs, Option.map_some', hb, factor_natCast hd]
    rw [normalize_exact_nat (m := -1) (t := d - 1) hd1.2 (by ring) (by norm_num)
      ⟨by omega, by omega⟩]
    have h2 : ((2 : ℚ) ^ (d - 1)) ≠ 0 := by positivity
    congr 2
    push_cast
    field_simp
  · intro i hs
    simp only [List.getElem?_map, hs, Option.map_some', hb, factor_natCast hd]
    simp only [List.mem_cons, List.mem_singleton, List.not_mem_nil, or_false] at hd
    rcases hd with rfl | rfl | rfl | rfl | rfl
    · rw [normalize_exact_nat (m := 2 ^ (8 - 1) - 1) (t := 0) (by norm_num) (by norm_num)
        (by norm_num) (by decide)]
      exact ⟨_, rfl, fun _ => by norm_num, fun h => by omega⟩
    · rw [normalize_exact_nat (m := 2 ^ (16 - 1) - 1) (t := 0) (by norm_num) (by norm_num)
        (by norm_num) (by decide)]
      exact ⟨_, rfl, fun _ => by norm_num, fun h => by omega⟩
    · rw [normalize_exact_nat (m := 2 ^ (24 - 1) - 1) (t := 0) (by norm_num) (by norm_num)
        (by norm_num) (by decide)]
      exact ⟨_, rfl, fun _ => by norm_num, fun h => by omega⟩
    · have h := normalize_32_max
      have e1 : (2 : ℚ) ^ (32 - 1) = 2 ^ (31 : ℤ) := by norm_num
      have e2 : (2 : ℤ) ^ (32 - 1) - 1 = 2147483647 := by norm_num
      rw [e1, e2, h]
      exact ⟨1, rfl, fun h => by omega, fun _ => rfl⟩
    · have h := normalize_64_max
      have e1 : (2 : ℚ) ^ (64 - 1) = 2 ^ (63 : ℤ) := by norm_num
      have e2 : (2 : ℤ) ^ (64 - 1) - 1 = 9223372036854775807 := by norm_num
      rw [e1, e2, h]
      exact ⟨1, rfl, fun h => by omega, fun _ => rfl⟩

/-- Witness of C3 (amended) on a 16-bit buffer holding both ends of the
range. -/
theorem AsFloat32Buffer_declared_range_witness :
    (16 : ℕ) ∈ [8, 16, 24, 32, 64] ∧
      (∀ s ∈ ([-32768, 0, 32767] : List ℤ), -2 ^ (16 - 1) ≤ s ∧ s ≤ 2 ^ (16 - 1) - 1) ∧
      ∃ out, AsFloat32Buffer (some ⟨some ⟨2, 44100⟩, [-32768, 0, 32767], 16⟩) = .ok out ∧
        (∀ x ∈ out.Data, ∃ r : ℚ, x = .finite r ∧ -1 ≤ r ∧ r ≤ 1) ∧
        out.Data[0]? = some (.finite (-1)) :=
  ⟨by decide, by decide, by
    obtain ⟨out, h1, h2, h3, _⟩ := AsFloat32Buffer_declared_range
      ⟨some ⟨2, 44100⟩, [-32768, 0, 32767], 16⟩ ⟨2, 44100⟩ 16 rfl (by decide) rfl (by decide)
    exact ⟨out, h1, h2, h3 0 rfl⟩⟩

/-- C4: a nonzero `SourceBitDepth` `d` is the bit depth `AsFloat32Buffer`
normalises with, whatever `Data` holds: every sample is divided by the factor
of `d`, and any two buffers declaring `d` get the same factor. -/
theorem bitDepth_declared (buf : IntBuffer) (d : ℤ) (hd : d ≠ 0)
    (hdecl : buf.SourceBitDepth = d) :
    bitDepth buf = d ∧
      (∀ out, AsFloat32Buffer (some buf) = .ok out →
        out.Data = buf.Data.map (normalize (factor d))) ∧
      (∀ buf2 : IntBuffer, buf2.SourceBitDepth = d →
        factor (bitDepth buf2) = factor (bitDepth buf)) := by
  have key : ∀ b : IntBuffer, b.SourceBitDepth = d → bitDepth b = d := by
    intro b hbd
    unfold bitDepth
    rw [if_neg (by rw [hbd]; exact hd), hbd]
  refine ⟨key buf hdecl, ?_, ?_⟩
  · intro out hout
    cases hfmt : buf.Format with
    | none => simp [AsFloat32Buffer, copyFormat, hfmt] at hout
    | some f =>
      rw [AsFloat32Buffer_ok hfmt] at hout
      cases hout
      rw [key buf hdecl]
  · intro buf2 h2
    rw [key buf hdecl, key buf2 h2]

/-- Witness of C4: two buffers declaring 16 bits, the largest sample of one in
the 8-bit bucket and of the other in the 24-bit bucket. -/
theorem bitDepth_declared_witness :
    (16 : ℤ) ≠ 0 ∧ bitDepth ⟨some ⟨1, 8000⟩, [100000], 16⟩ = 16 ∧
      factor (bitDepth ⟨some ⟨1, 8000⟩, [1], 16⟩) =
        factor (bitDepth ⟨some ⟨1, 8000⟩, [100000], 16⟩) :=
  ⟨by decide,
    (bitDepth_declared ⟨some ⟨1, 8000⟩, [100000], 16⟩ 16 (by decide) rfl).1,
    (bitDepth_declared ⟨some ⟨1, 8000⟩, [100000], 16⟩ 16 (by decide) rfl).2.2
      ⟨some ⟨1, 8000⟩, [1], 16⟩ rfl⟩

/-- C5 (code at the failing input): with `SourceBitDepth` 2, the byte count of
int16, `bitDepth / 8` is 0, the factor is `2 ^ (-1)` and the sample -32768 is
mapped to -65536, not to -1. -/
theorem AsFloat32Buffer_byteCount_two :
    AsFloat32Buffer (some ⟨some ⟨1, 44100⟩, [-32768], 2⟩) =
      .ok ⟨some ⟨1, 44100⟩, [.finite (-65536)]⟩ := by
  rw [AsFloat32Buffer_ok rfl]
  have hb : bitDepth ⟨some ⟨1, 44100⟩, [-32768], 2⟩ = 2 := by decide
  simp only [hb, factor_2, List.map_cons, List.map_nil, normalize_half]

/-- C6: with a present `Format`, `AsFloatBuffer` returns as many samples as it
was given, element `i` being `float64(Data[i])`: the conversion alone, exact
up to magnitude `2 ^ 53`, with no scaling; it is the same whatever
`SourceBitDepth` and the other samples are. -/
theorem AsFloatBuffer_widens (buf : IntBuffer) (f : Format) (hf : buf.Format = some f) :
    ∃ out, AsFloatBuffer (some buf) = .ok out ∧
      out.Data.length = buf.Data.length ∧
      (∀ (i : ℕ) (s : ℤ), buf.Data[i]? = some s →
        out.Data[i]? = some (float64OfInt s) ∧
          (|s| ≤ 2 ^ 53 → out.Data[i]? = some (.finite (s : ℚ)))) ∧
      (∀ (buf2 : IntBuffer) (out2 : FloatBuffer) (i : ℕ),
        AsFloatBuffer (some buf2) = .ok out2 → buf2.Data[i]? = buf.Data[i]? →
        out2.Data[i]? = out.Data[i]?) := by
  refine ⟨_, AsFloatBuffer_ok hf, by simp, ?_, ?_⟩
  · intro i s hs
    have h1 : (buf.Data.map float64OfInt)[i]? = some (float64OfInt s) := by
      simp only [List.getElem?_map, hs, Option.map_some']
    refine ⟨h1, fun hle => ?_⟩
    rw [← float64OfInt_of_abs_le hle]
    exact h1
  · intro buf2 out2 i hout heq
    cases hfmt : buf2.Format with
    | none => simp [AsFloatBuffer, copyFormat, hfmt] at hout
    | some g =>
      rw [AsFloatBuffer_ok hfmt] at hout
      cases hout
      simp only [List.getElem?_map, heq]

/-- Witness of C6 on a buffer of three samples. -/
theorem AsFloatBuffer_widens_witness :
    ∃ out, AsFloatBuffer (some ⟨some ⟨2, 44100⟩, [-3, 0, 70000], 16⟩) = .ok out ∧
      out.Data.length = 3 ∧ out.Data[2]? = some (.finite 70000) := by
  obtain ⟨out, h1, h2, h3, _⟩ := AsFloatBuffer_widens
    ⟨some ⟨2, 44100⟩, [-3, 0, 70000], 16⟩ ⟨2, 44100⟩ rfl
  exact ⟨out, h1, h2, by simpa using (h3 2 70000 rfl).2 (by decide)⟩

/-- C7: `NumFrames` is 0 for an absent buffer and for a buffer without
`Format`; otherwise, for a non-negative channel count, it is `len(Data)`
divided by `max(NumChannels, 1)`: 8 samples make 4 frames on 2 channels and
8 frames on 0 channels. -/
theorem NumFrames_spec (buf : IntBuffer) (f : Format) (hf : buf.Format = some f)
    (hn : 0 ≤ f.NumChannels) :
    NumFrames (some buf) = (buf.Data.length : ℤ) / max f.NumChannels 1 ∧
      NumFrames none = 0 ∧
      (∀ b : IntBuffer, b.Format = none → NumFrames (some b) = 0) ∧
      NumFrames (some ⟨some ⟨2, 44100⟩, [1, 2, 3, 4, 5, 6, 7, 8], 0⟩) = 4 ∧
      NumFrames (some ⟨some ⟨0, 44100⟩, [1, 2, 3, 4, 5, 6, 7, 8], 0⟩) = 8 := by
  refine ⟨?_, rfl, ?_, by decide, by decide⟩
  · simp only [NumFrames, hf]
    by_cases h0 : f.NumChannels = 0
    · rw [if_pos h0, h0, max_eq_right (by norm_num), Int.tdiv_one, Int.ediv_one]
    · rw [if_neg h0, max_eq_left (by omega)]
      exact Int.tdiv_eq_ediv (by positivity) hn
  · intro b hb
    simp only [NumFrames, hb]

/-- Witness of C7: 6 samples on 4 channels make 1 frame. -/
theorem NumFrames_spec_witness :
    (0 : ℤ) ≤ 4 ∧ NumFrames (some ⟨some ⟨4, 48000⟩, [1, 2, 3, 4, 5, 6], 0⟩) = 1 :=
  ⟨by decide,
    (NumFrames_spec ⟨some ⟨4, 48000⟩, [1, 2, 3, 4, 5, 6], 0⟩ ⟨4, 48000⟩ rfl (by decide)).1.trans
      (by decide)⟩

/-! ## The store -/

theorem Heap.getD_append_left (h : Heap) (x : List ℤ) {i : ℕ} (hi : i < h.length) :
    (h ++ [x]).getD i [] = h.getD i [] := by
  simp [List.getD_eq_getElem?_getD, List.getElem?_append_left hi]

theorem Heap.getD_append_length (h : Heap) (x : List ℤ) : (h ++ [x]).getD h.length [] = x := by
  simp [List.getD_eq_getElem?_getD]

theorem Heap.set_append_length (h : Heap) (x y : List ℤ) :
    (h ++ [x]).set h.length y = h ++ [y] := by
  induction h with
  | nil => rfl
  | cons a l ih => simp [List.set, ih]

/-- A slice of the old store reads the same after an array is allocated. -/
theorem Heap.load_append_left (h : Heap) (x : List ℤ) {s : Slice} (hs : s.array < h.length) :
    Heap.load (h ++ [x]) s = Heap.load h s := by
  unfold Heap.load
  rw [Heap.getD_append_left h x hs]

/-- The slice of all of the array allocated last reads that array. -/
theorem Heap.load_append_length (h : Heap) (x : List ℤ) :
    Heap.load (h ++ [x]) { array := h.length, offset := 0, len := x.length } = x := by
  unfold Heap.load
  rw [Heap.getD_append_length]
  simp

theorem Heap.length_load {h : Heap} {s : Slice} (hv : h.Valid s) : (h.load s).length = s.len := by
  unfold Heap.load
  rw [List.length_take, List.length_drop]
  have := hv.2
  omega

/-- What `Clone` does to the store: the clone's `Data` is the slice of all of a
new array holding the source's samples. -/
theorem Clone_ok {h : Heap} {buf : IntBufferRef} {f : Format} (hf : buf.Format = some f)
    (hv : h.Valid buf.Data) :
    Clone h (some buf) = .ok (h ++ [h.load buf.Data],
      some { Format := some f,
             Data := { array := h.length, offset := 0, len := buf.Data.len },
             SourceBitDepth := 0 }) := by
  have hlen := Heap.length_load hv
  have hcopy : Heap.copy (h ++ [List.replicate buf.Data.len 0])
      { array := h.length, offset := 0, len := buf.Data.len } buf.Data =
      h ++ [h.load buf.Data] := by
    unfold Heap.copy
    simp only [Heap.load_append_left h _ hv.1, Heap.getD_append_length]
    simp only [List.take_zero, List.nil_append, Nat.zero_add]
    rw [List.take_of_length_le (le_of_eq hlen), hlen,
      List.drop_eq_nil_of_le (by rw [List.length_replicate]), List.append_nil,
      Heap.set_append_length]
  simp only [Clone, Heap.make, hcopy, copyFormat, hf]

/-- C8: for a present buffer with a present `Format`, the `Data` of the clone
holds the same samples as the source's `Data`, the source's `Data` is as it
was, and an assignment to any element of the clone's `Data` changes that
element of the clone and leaves the source's `Data` unchanged. -/
theorem Clone_data (h : Heap) (buf : IntBufferRef) (f : Format) (hf : buf.Format = some f)
    (hv : h.Valid buf.Data) :
    ∃ (h2 : Heap) (c : IntBufferRef), Clone h (some buf) = .ok (h2, some c) ∧
      h2.load c.Data = h.load buf.Data ∧
      h2.load buf.Data = h.load buf.Data ∧
      ∀ (i : ℕ) (v : ℤ), i < (h.load buf.Data).length →
        ∃ h3 : Heap, h2.store c.Data i v = .ok h3 ∧
          h3.load buf.Data = h.load buf.Data ∧
          h3.load c.Data = (h.load buf.Data).set i v := by
  have hlen := Heap.length_load hv
  refine ⟨_, _, Clone_ok hf hv, ?_, Heap.load_append_left h _ hv.1, ?_⟩
  · have := Heap.load_append_length h (h.load buf.Data)
    rwa [hlen] at this
  · intro i v hi
    refine ⟨h ++ [(h.load buf.Data).set i v], ?_, Heap.load_append_left h _ hv.1, ?_⟩
    · unfold Heap.store
      simp only
      rw [if_pos (by omega), Heap.getD_append_length, Heap.set_append_length, Nat.zero_add]
    · have := Heap.load_append_length h ((h.load buf.Data).set i v)
      rwa [List.length_set, hlen] at this

/-- Witness of C8: the clone of a two-sample window of a four-sample array. -/
theorem Clone_data_witness :
    Heap.Valid [[1, 2, 3, 4]] { array := 0, offset := 1, len := 2 } ∧
      ∃ (h2 : Heap) (c : IntBufferRef),
        Clone [[1, 2, 3, 4]] (some ⟨some ⟨2, 44100⟩, ⟨0, 1, 2⟩, 16⟩) = .ok (h2, some c) ∧
        h2.load c.Data = [2, 3] ∧ h2.load ⟨0, 1, 2⟩ = [2, 3] := by
  have hv : Heap.Valid [[1, 2, 3, 4]] { array := 0, offset := 1, len := 2 } := by
    unfold Heap.Valid
    decide
  obtain ⟨h2, c, h1, h3, h4, _⟩ := Clone_data [[1, 2, 3, 4]]
    ⟨some ⟨2, 44100⟩, ⟨0, 1, 2⟩, 16⟩ ⟨2, 44100⟩ rfl hv
  exact ⟨hv, h2, c, h1, h3, h4⟩

/-- C9: for a present buffer with a present `Format`, the `Format` of the
result of `AsFloatBuffer`, of `AsFloat32Buffer` and of `Clone` has the
`NumChannels` and the `SampleRate` of the source, whatever `Data` and
`SourceBitDepth` are. -/
theorem Format_carried (buf : IntBuffer) (f : Format) (hf : buf.Format = some f) :
    (∃ out, AsFloatBuffer (some buf) = .ok out ∧ ∃ g, out.Format = some g ∧
      g.NumChannels = f.NumChannels ∧ g.SampleRate = f.SampleRate) ∧
    (∃ out, AsFloat32Buffer (some buf) = .ok out ∧ ∃ g, out.Format = some g ∧
      g.NumChannels = f.NumChannels ∧ g.SampleRate = f.SampleRate) ∧
    (∀ (h : Heap) (r : IntBufferRef), r.deref h = buf →
      ∃ (h2 : Heap) (c : IntBufferRef), Clone h (some r) = .ok (h2, some c) ∧
        ∃ g, c.Format = some g ∧
          g.NumChannels = f.NumChannels ∧ g.SampleRate = f.SampleRate) := by
  refine ⟨⟨_, AsFloatBuffer_ok hf, f, rfl, rfl, rfl⟩, ⟨_, AsFloat32Buffer_ok hf, f, rfl, rfl, rfl⟩,
    ?_⟩
  intro h r hr
  have hrf : r.Format = some f := by
    rw [← hr] at hf
    exact hf
  simp only [Clone, Heap.make, copyFormat, hrf]
  exact ⟨_, _, rfl, f, rfl, rfl, rfl⟩

/-- Witness of C9 on a stereo buffer at 44100 Hz. -/
theorem Format_carried_witness :
    ∃ out, AsFloat32Buffer (some ⟨some ⟨2, 44100⟩, [1, 2], 16⟩) = .ok out ∧
      ∃ g, out.Format = some g ∧ g.NumChannels = 2 ∧ g.SampleRate = 44100 :=
  (Format_carried ⟨some ⟨2, 44100⟩, [1, 2], 16⟩ ⟨2, 44100⟩ rfl).2.1

/-- C10 (code at the failing input): on a present buffer whose `Format` is
absent, `AsFloatBuffer`, `AsFloat32Buffer` and `Clone` panic on the nil
dereference `buf.Format.NumChannels`; `NumFrames`, which tests
`buf.Format == nil`, returns 0. -/
theorem absent_Format_panics :
    AsFloatBuffer (some ⟨none, [], 0⟩) = .error .nilDereference ∧
      AsFloat32Buffer (some ⟨none, [], 0⟩) = .error .nilDereference ∧
      Clone [[]] (some ⟨none, ⟨0, 0, 0⟩, 0⟩) = .error .nilDereference ∧
      NumFrames (some ⟨none, [], 0⟩) = 0 :=
  ⟨rfl, rfl, rfl, rfl⟩

/-! ## Further helper facts -/

theorem guessBitDepth_mono {m1 m2 : ℤ} (h : m1 ≤ m2) : guessBitDepth m1 ≤ guessBitDepth m2 := by
  unfold guessBitDepth
  simp only
  split_ifs <;> omega

theorem guessBitDepth_mem (m : ℤ) : guessBitDepth m ∈ [8, 16, 24, 32, 64] := by
  unfold guessBitDepth
  simp only
  split_ifs <;> simp

theorem maxSample_le_of_dominated {S T : List ℤ} (h : ∀ s ∈ S, ∃ t ∈ T, s ≤ t) :
    maxSample S ≤ maxSample T := by
  unfold maxSample
  rcases foldl_max_eq_or_mem S 0 with h0 | hmem
  · rw [h0]
    exact foldl_max_ge_init T 0
  · obtain ⟨t, ht, hle⟩ := h _ hmem
    exact le_trans hle (foldl_max_ge_mem T 0 t ht)

theorem maxSample_le_append (S T : List ℤ) : maxSample S ≤ maxSample (S ++ T) :=
  maxSample_le_of_dominated (fun s hs => ⟨s, List.mem_append_left T hs, le_refl s⟩)

theorem bitDepth_of_zero {buf : IntBuffer} (h : buf.SourceBitDepth = 0) :
    bitDepth buf = guessBitDepth (maxSample buf.Data) := by
  unfold bitDepth
  rw [if_pos h]

theorem bitDepth_of_ne_zero {buf : IntBuffer} (h : buf.SourceBitDepth ≠ 0) :
    bitDepth buf = buf.SourceBitDepth := by
  unfold bitDepth
  rw [if_neg h]

/-- `Clone` of a buffer with empty `Data`: the clone's `Data` is the slice of
all of a new array of length 0. -/
theorem Clone_empty {h : Heap} {buf : IntBufferRef} {f : Format} (hf : buf.Format = some f)
    (hlen : buf.Data.len = 0) :
    Clone h (some buf) = .ok (h ++ [[]],
      some { Format := some f, Data := { array := h.length, offset := 0, len := 0 },
             SourceBitDepth := 0 }) := by
  have hcopy : Heap.copy (h ++ [List.replicate 0 0]) { array := h.length, offset := 0, len := 0 }
      buf.Data = h ++ [[]] := by
    unfold Heap.copy
    simp only [List.take_zero, List.nil_append, List.length_nil, Nat.add_zero,
      Heap.getD_append_length, List.replicate_zero, List.drop_nil, Heap.set_append_length]
  simp only [Clone, Heap.make, hlen, hcopy, copyFormat, hf]

/-- A sample in the signed range of the depth `d` is divided exactly when
`d` is at most 24, or when the sample has at most 24 significant bits. -/
theorem normalize_in_range {d : ℕ} (hd : d ∈ [8, 16, 24, 32, 64]) {s : ℤ}
    (h1 : -2 ^ (d - 1) ≤ s) (h2 : s ≤ 2 ^ (d - 1) - 1)
    (hsig : d ≤ 24 ∨ ∃ (m : ℤ) (t : ℕ), s = m * 2 ^ t ∧ |m| ≤ 2 ^ 24) :
    normalize (.finite ((2 : ℚ) ^ (d - 1))) s = .finite ((s : ℚ) / 2 ^ (d - 1)) := by
  have hd1 := depth_le_of_mem hd
  have hpow : (2 : ℤ) ^ (d - 1) ≤ 2 ^ 63 := pow_le_pow_right₀ (by norm_num) hd1.2
  have h64 : IsInt64 s := ⟨by omega, by omega⟩
  rcases hsig with h24 | ⟨m, t, hs, hm⟩
  · have hpow24 : (2 : ℤ) ^ (d - 1) ≤ 2 ^ 23 := pow_le_pow_right₀ (by norm_num) (by omega)
    exact normalize_exact_nat (m := s) (t := 0) hd1.2 (by ring)
      (by rw [abs_le]; constructor <;> omega) h64
  · exact normalize_exact_nat hd1.2 hs hm h64

/-! ## The specification, claims 11 to 18 -/

/-- C11: `Clone` of an absent (nil) buffer returns an absent result, without
a panic and without touching the store; `Clone` of a present buffer with a
present `Format` and empty `Data` returns a present buffer with empty
`Data`. -/
theorem Clone_absent_or_empty (h : Heap) (buf : IntBufferRef) (f : Format)
    (hf : buf.Format = some f) (hlen : buf.Data.len = 0) :
    Clone h none = .ok (h, none) ∧
      h.load buf.Data = [] ∧
      ∃ (h2 : Heap) (c : IntBufferRef), Clone h (some buf) = .ok (h2, some c) ∧
        c.Data.len = 0 ∧ h2.load c.Data = [] := by
  refine ⟨rfl, ?_, _, _, Clone_empty hf hlen, rfl, ?_⟩
  · unfold Heap.load
    rw [hlen, List.take_zero]
  · unfold Heap.load
    rw [List.take_zero]

/-- Witness of C11: the clone of a buffer whose `Data` is an empty window. -/
theorem Clone_absent_or_empty_witness :
    Clone [[7]] none = .ok ([[7]], none) ∧
      ∃ (h2 : Heap) (c : IntBufferRef),
        Clone [[7]] (some ⟨some ⟨2, 44100⟩, ⟨0, 0, 0⟩, 16⟩) = .ok (h2, some c) ∧
        h2.load c.Data = [] := by
  obtain ⟨h1, _, h2, c, h3, _, h5⟩ := Clone_absent_or_empty [[7]]
    ⟨some ⟨2, 44100⟩, ⟨0, 0, 0⟩, 16⟩ ⟨2, 44100⟩ rfl rfl
  exact ⟨h1, h2, c, h3, h5⟩

/-- C13 (code at the failing input): the largest sample `2147483648 = 2 ^ 31`
is put in the 32-bit bucket, whose signed range ends at `2 ^ 31 - 1`; the
smallest depth whose signed range holds it is 64. -/
theorem bitDepth_past_int32 :
    bitDepth ⟨some ⟨1, 44100⟩, [2147483648], 0⟩ = 32 ∧
      ¬ ((2147483648 : ℤ) ≤ 2 ^ (32 - 1) - 1) ∧ (2147483648 : ℤ) ≤ 2 ^ (64 - 1) - 1 := by
  refine ⟨by decide, by norm_num, by norm_num⟩

/-- C14 (code at the failing input): with `SourceBitDepth` 0 the non-negative
sample `3221225472 = 3 * 2 ^ 30` is put in the 32-bit bucket and divided by
`2 ^ 31`: the output is `3/2`, above 1. -/
theorem AsFloat32Buffer_inferred_above_one :
    AsFloat32Buffer (some ⟨some ⟨1, 44100⟩, [3221225472], 0⟩) =
        .ok ⟨some ⟨1, 44100⟩, [.finite (3 / 2)]⟩ ∧ ¬ ((3 / 2 : ℚ) ≤ 1) := by
  constructor
  · rw [AsFloat32Buffer_ok rfl]
    have hb : bitDepth ⟨some ⟨1, 44100⟩, [3221225472], 0⟩ = 32 := by decide
    have hn := normalize_exact (j := 31) (by norm_num) (by norm_num) (s := 3221225472) (m := 3)
      (t := 30) (by norm_num) (by norm_num) (by norm_num)
    have he : ((3221225472 : ℤ) : ℚ) / 2 ^ (31 : ℤ) = 3 / 2 := by norm_num
    rw [he] at hn
    simp only [hb, factor_32, List.map_cons, List.map_nil, hn]
  · norm_num

/-- C15 (code at the failing input): the clone of a buffer declaring 16 bits
has `SourceBitDepth` 0, so `AsFloat32Buffer` guesses 8 bits for the clone of
`[1]` and maps the sample to `1/128`, where the source gives `1/32768`. -/
theorem Clone_drops_SourceBitDepth :
    ∃ (h2 : Heap) (c : IntBufferRef),
      Clone [[1]] (some ⟨some ⟨1, 44100⟩, ⟨0, 0, 1⟩, 16⟩) = .ok (h2, some c) ∧
      c.SourceBitDepth = 0 ∧
      AsFloat32Buffer (some (IntBufferRef.deref [[1]] ⟨some ⟨1, 44100⟩, ⟨0, 0, 1⟩, 16⟩)) =
        .ok ⟨some ⟨1, 44100⟩, [.finite (1 / 32768)]⟩ ∧
      AsFloat32Buffer (some (c.deref h2)) = .ok ⟨some ⟨1, 44100⟩, [.finite (1 / 128)]⟩ := by
  have hv : Heap.Valid [[1]] { array := 0, offset := 0, len := 1 } := by
    unfold Heap.Valid
    decide
  have hsrc : IntBufferRef.deref [[1]] ⟨some ⟨1, 44100⟩, ⟨0, 0, 1⟩, 16⟩ =
      ⟨some ⟨1, 44100⟩, [1], 16⟩ := rfl
  have hdst : IntBufferRef.deref ([[1]] ++ [Heap.load [[1]] ⟨0, 0, 1⟩])
      ⟨some ⟨1, 44100⟩, ⟨1, 0, 1⟩, 0⟩ = ⟨some ⟨1, 44100⟩, [1], 0⟩ := rfl
  have h16 := normalize_exact (j := 15) (by norm_num) (by norm_num) (s := 1) (m := 1)
    (t := 0) (by norm_num) (by norm_num) (by norm_num)
  have h8 := normalize_exact (j := 7) (by norm_num) (by norm_num) (s := 1) (m := 1)
    (t := 0) (by norm_num) (by norm_num) (by norm_num)
  have e16 : ((1 : ℤ) : ℚ) / 2 ^ (15 : ℤ) = 1 / 32768 := by norm_num
  have e8 : ((1 : ℤ) : ℚ) / 2 ^ (7 : ℤ) = 1 / 128 := by norm_num
  rw [e16] at h16
  rw [e8] at h8
  refine ⟨_, _, Clone_ok (f := ⟨1, 44100⟩) rfl hv, rfl, ?_, ?_⟩
  · rw [hsrc, AsFloat32Buffer_ok rfl]
    have hb : bitDepth ⟨some ⟨1, 44100⟩, [1], 16⟩ = 16 := by decide
    simp only [hb, factor_16, List.map_cons, List.map_nil, h16]
  · show AsFloat32Buffer (some (IntBufferRef.deref ([[1]] ++ [Heap.load [[1]] ⟨0, 0, 1⟩])
      ⟨some ⟨1, 44100⟩, ⟨1, 0, 1⟩, 0⟩)) = _
    rw [hdst, AsFloat32Buffer_ok rfl]
    have hb : bitDepth ⟨some ⟨1, 44100⟩, [1], 0⟩ = 8 := by decide
    simp only [hb, factor_8, List.map_cons, List.map_nil, h8]

/-- C16: with `SourceBitDepth` 0 the inferred depth grows with the largest
sample: if the largest sample of `S` (0 when none is positive) is at most that
of `T`, or every sample of `S` is at most some sample of `T`, the depth of `S`
is at most the depth of `T`; appending samples never lowers the depth; the
depth is one of 8, 16, 24, 32, 64. -/
theorem bitDepth_inferred_mono (bS bT : IntBuffer) (hS : bS.SourceBitDepth = 0)
    (hT : bT.SourceBitDepth = 0) :
    (∀ mS mT : ℤ, (mS = 0 ∨ mS ∈ bS.Data) → 0 ≤ mS → (∀ s ∈ bS.Data, s ≤ mS) →
      (mT = 0 ∨ mT ∈ bT.Data) → 0 ≤ mT → (∀ t ∈ bT.Data, t ≤ mT) → mS ≤ mT →
      bitDepth bS ≤ bitDepth bT) ∧
    ((∀ s ∈ bS.Data, ∃ t ∈ bT.Data, s ≤ t) → bitDepth bS ≤ bitDepth bT) ∧
    (∀ extra : List ℤ, bitDepth bS ≤ bitDepth { bS with Data := bS.Data ++ extra }) ∧
    bitDepth bS ∈ [8, 16, 24, 32, 64] := by
  rw [bitDepth_of_zero hS, bitDepth_of_zero hT]
  refine ⟨?_, ?_, ?_, guessBitDepth_mem _⟩
  · intro mS mT a1 a2 a3 b1 b2 b3 hle
    rw [maxSample_eq a1 a2 a3, maxSample_eq b1 b2 b3]
    exact guessBitDepth_mono hle
  · intro hdom
    exact guessBitDepth_mono (maxSample_le_of_dominated hdom)
  · intro extra
    have hx : bitDepth { bS with Data := bS.Data ++ extra } =
        guessBitDepth (maxSample (bS.Data ++ extra)) := bitDepth_of_zero hS
    rw [hx]
    exact guessBitDepth_mono (maxSample_le_append bS.Data extra)

/-- Witness of C16: `[3, 200]` against `[-1, 40000]`. -/
theorem bitDepth_inferred_mono_witness :
    bitDepth ⟨some ⟨1, 8000⟩, [3, 200], 0⟩ ≤ bitDepth ⟨some ⟨1, 8000⟩, [-1, 40000], 0⟩ ∧
      bitDepth ⟨some ⟨1, 8000⟩, [3, 200], 0⟩ ∈ [8, 16, 24, 32, 64] :=
  ⟨(bitDepth_inferred_mono ⟨some ⟨1, 8000⟩, [3, 200], 0⟩ ⟨some ⟨1, 8000⟩, [-1, 40000], 0⟩
      rfl rfl).2.1 (by decide),
    (bitDepth_inferred_mono ⟨some ⟨1, 8000⟩, [3, 200], 0⟩ ⟨some ⟨1, 8000⟩, [-1, 40000], 0⟩
      rfl rfl).2.2.2⟩

/-- C17: at a nonzero `SourceBitDepth` `d`, `AsFloat32Buffer` works sample by
sample: element `i` of the output is the conversion of `Data[i]` at `d`, and
the conversion of `S ++ T` is the conversion of `S` followed by that of `T`. -/
theorem AsFloat32Buffer_elementwise (d : ℤ) (hd : d ≠ 0) (f : Format) (S T : List ℤ) :
    ∃ oS oT oST : Float32Buffer,
      AsFloat32Buffer (some ⟨some f, S, d⟩) = .ok oS ∧
      AsFloat32Buffer (some ⟨some f, T, d⟩) = .ok oT ∧
      AsFloat32Buffer (some ⟨some f, S ++ T, d⟩) = .ok oST ∧
      oST.Data = oS.Data ++ oT.Data ∧
      (∀ i : ℕ, oS.Data[i]? = (S[i]?).map (normalize (factor d))) ∧
      (∀ i : ℕ, oST.Data[i]? = ((S ++ T)[i]?).map (normalize (factor d))) := by
  have key : ∀ D : List ℤ, bitDepth ⟨some f, D, d⟩ = d := fun D =>
    @bitDepth_of_ne_zero ⟨some f, D, d⟩ hd
  refine ⟨_, _, _, AsFloat32Buffer_ok rfl, AsFloat32Buffer_ok rfl, AsFloat32Buffer_ok rfl, ?_, ?_,
    ?_⟩
  · simp only [key, List.map_append]
  · intro i
    simp only [key, List.getElem?_map]
  · intro i
    simp only [key, List.getElem?_map]

/-- Witness of C17 at 16 bits. -/
theorem AsFloat32Buffer_elementwise_witness :
    (16 : ℤ) ≠ 0 ∧ ∃ oS oT oST : Float32Buffer,
      AsFloat32Buffer (some ⟨some ⟨1, 8000⟩, [1, 2], 16⟩) = .ok oS ∧
      AsFloat32Buffer (some ⟨some ⟨1, 8000⟩, [300000], 16⟩) = .ok oT ∧
      AsFloat32Buffer (some ⟨some ⟨1, 8000⟩, [1, 2] ++ [300000], 16⟩) = .ok oST ∧
      oST.Data = oS.Data ++ oT.Data := by
  obtain ⟨oS, oT, oST, h1, h2, h3, h4, _⟩ :=
    AsFloat32Buffer_elementwise 16 (by decide) ⟨1, 8000⟩ [1, 2] [300000]
  exact ⟨by decide, oS, oT, oST, h1, h2, h3, h4⟩

/-- Counterexample to C12 as stated: at the declared depth 32 the samples
`33554432` and `33554433`, both in the signed 32-bit range, give the same
output `33554432 / 2 ^ 31`; scaled back by `2 ^ 31` and rounded it is
`33554432`, not `33554433`. -/
theorem AsFloat32Buffer_roundtrip_fails :
    AsFloat32Buffer (some ⟨some ⟨1, 44100⟩, [33554432, 33554433], 32⟩) =
        .ok ⟨some ⟨1, 44100⟩, [.finite (33554432 / 2 ^ 31), .finite (33554432 / 2 ^ 31)]⟩ ∧
      (-2 ^ (32 - 1) ≤ (33554433 : ℤ) ∧ (33554433 : ℤ) ≤ 2 ^ (32 - 1) - 1) ∧
      roundHalfEven ((33554432 / 2 ^ 31 : ℚ) * 2 ^ (32 - 1)) ≠ 33554433 := by
  refine ⟨?_, by norm_num, ?_⟩
  · rw [AsFloat32Buffer_ok rfl]
    have hb : bitDepth ⟨some ⟨1, 44100⟩, [33554432, 33554433], 32⟩ = 32 := by decide
    have hn := normalize_exact (j := 31) (by norm_num) (by norm_num) (s := 33554432) (m := 1)
      (t := 25) (by norm_num) (by norm_num) (by norm_num)
    have he : ((33554432 : ℤ) : ℚ) / 2 ^ (31 : ℤ) = 33554432 / 2 ^ 31 := by norm_num
    rw [he] at hn
    simp only [hb, factor_32, List.map_cons, List.map_nil, hn, normalize_32_inexact]
  · have he : (33554432 / 2 ^ 31 : ℚ) * 2 ^ (32 - 1) = ((33554432 : ℤ) : ℚ) := by norm_num
    rw [he, roundHalfEven_intCast]
    decide

/-- C12 (amended): at a declared depth `d` among 8, 16, 24, 32, 64, for a
sample `s` in the signed range of `d` which, when `d` is 32 or 64, has at most
24 significant bits, the output times `2 ^ (d - 1)`, rounded to the nearest
integer, is `s`; two such samples with the same output are equal. -/
theorem AsFloat32Buffer_roundtrip (buf : IntBuffer) (f : Format) (d : ℕ)
    (hf : buf.Format = some f) (hd : d ∈ [8, 16, 24, 32, 64]) (hdecl : buf.SourceBitDepth = d) :
    ∃ out, AsFloat32Buffer (some buf) = .ok out ∧
      (∀ (i : ℕ) (s : ℤ), buf.Data[i]? = some s → -2 ^ (d - 1) ≤ s → s ≤ 2 ^ (d - 1) - 1 →
        (d ≤ 24 ∨ ∃ (m : ℤ) (t : ℕ), s = m * 2 ^ t ∧ |m| ≤ 2 ^ 24) →
        ∃ r : ℚ, out.Data[i]? = some (.finite r) ∧ roundHalfEven (r * 2 ^ (d - 1)) = s) ∧
      (∀ (i j : ℕ) (s1 s2 : ℤ), buf.Data[i]? = some s1 → buf.Data[j]? = some s2 →
        -2 ^ (d - 1) ≤ s1 → s1 ≤ 2 ^ (d - 1) - 1 → -2 ^ (d - 1) ≤ s2 → s2 ≤ 2 ^ (d - 1) - 1 →
        (d ≤ 24 ∨ ∃ (m : ℤ) (t : ℕ), s1 = m * 2 ^ t ∧ |m| ≤ 2 ^ 24) →
        (d ≤ 24 ∨ ∃ (m : ℤ) (t : ℕ), s2 = m * 2 ^ t ∧ |m| ≤ 2 ^ 24) →
        out.Data[i]? = out.Data[j]? → s1 = s2) := by
  have hd1 := depth_le_of_mem hd
  have hb : bitDepth buf = d := by
    rw [bitDepth_of_ne_zero (by rw [hdecl]; omega), hdecl]
  have h2 : ((2 : ℚ) ^ (d - 1)) ≠ 0 := by positivity
  refine ⟨_, AsFloat32Buffer_ok hf, ?_, ?_⟩
  · intro i s hs hlo hhi hsig
    refine ⟨(s : ℚ) / 2 ^ (d - 1), ?_, ?_⟩
    · simp only [List.getElem?_map, hs, Option.map_some', hb, factor_natCast hd]
      rw [normalize_in_range hd hlo hhi hsig]
    · rw [div_mul_cancel₀ _ h2, roundHalfEven_intCast]
  · intro i j s1 s2 hs1 hs2 hlo1 hhi1 hlo2 hhi2 hsig1 hsig2 heq
    simp only [List.getElem?_map, hs1, hs2, Option.map_some', hb, factor_natCast hd] at heq
    rw [normalize_in_range hd hlo1 hhi1 hsig1, normalize_in_range hd hlo2 hhi2 hsig2] at heq
    injection heq with heq
    injection heq with heq
    have := (div_left_inj' h2).mp heq
    exact_mod_cast this

/-- Witness of C12 (amended) on a 16-bit buffer. -/
theorem AsFloat32Buffer_roundtrip_witness :
    (16 : ℕ) ∈ [8, 16, 24, 32, 64] ∧
      ∃ out, AsFloat32Buffer (some ⟨some ⟨2, 44100⟩, [-12345, 32767], 16⟩) = .ok out ∧
        ∃ r : ℚ, out.Data[0]? = some (.finite r) ∧ roundHalfEven (r * 2 ^ (16 - 1)) = -12345 := by
  obtain ⟨out, h1, h2, _⟩ := AsFloat32Buffer_roundtrip
    ⟨some ⟨2, 44100⟩, [-12345, 32767], 16⟩ ⟨2, 44100⟩ 16 rfl (by decide) rfl
  exact ⟨by decide, out, h1, h2 0 (-12345) rfl (by norm_num) (by norm_num) (Or.inl (by norm_num))⟩

/-! ## Rounding keeps the sign -/

theorem le_roundHalfEven_of_le {m : ℚ} {N : ℤ} (h : (N : ℚ) ≤ m) : N ≤ roundHalfEven m :=
  le_trans (Int.le_floor.mpr h) (floor_le_roundHalfEven m)

namespace FloatFormat

theorem round_zero (F : FloatFormat) : F.round 0 = .finite 0 := by
  unfold round
  rw [abs_zero, roundMag_zero, if_neg (not_le.mpr (by positivity))]
  simp

/-- Rounding never carries a magnitude below a power of two of the format
(subnormal ones included) that it reaches. -/
theorem le_roundMag_of_zpow_le (F : FloatFormat) (hp : 1 ≤ F.prec) {a : ℚ} {n : ℤ}
    (hn : F.emin - ((F.prec : ℤ) - 1) ≤ n) (h : 2 ^ n ≤ a) : 2 ^ n ≤ F.roundMag a := by
  have ha : 0 < a := lt_of_lt_of_le (by positivity) h
  obtain ⟨k, hnk, hu, hle⟩ :
      ∃ k : ℤ, n ≤ k ∧ F.exponent a - ((F.prec : ℤ) - 1) ≤ k ∧ (2 : ℚ) ^ k ≤ a := by
    unfold exponent
    rcases max_cases (Int.log 2 a) F.emin with ⟨h1, _⟩ | ⟨h1, _⟩
    · rw [h1]
      refine ⟨Int.log 2 a, le_log_of_zpow_le ha h, by omega, ?_⟩
      simpa using Int.zpow_log_le_self (b := 2) (by norm_num) ha
    · rw [h1]
      exact ⟨n, le_refl n, hn, h⟩
  obtain ⟨N, hN⟩ := isInt_mul_zpow 1 (sub_nonneg.mpr hu)
  have hNu : (N : ℚ) * F.ulp a = 2 ^ k := by
    rw [← hN]
    unfold ulp
    rw [Int.cast_one, one_mul, ← zpow_add₀ (by norm_num : (2 : ℚ) ≠ 0)]
    simp
  have hdiv : (N : ℚ) ≤ a / F.ulp a := by
    rw [le_div_iff₀ (F.ulp_pos a), hNu]
    exact hle
  have hr : (N : ℚ) ≤ (roundHalfEven (a / F.ulp a) : ℚ) := by
    exact_mod_cast le_roundHalfEven_of_le hdiv
  calc (2 : ℚ) ^ n ≤ 2 ^ k := zpow_le_zpow_right₀ (by norm_num) hnk
    _ = (N : ℚ) * F.ulp a := hNu.symm
    _ ≤ F.roundMag a := mul_le_mul_of_nonneg_right hr (F.ulp_pos a).le

/-- A value from `2 ^ n` up is rounded to a finite value from `2 ^ n` up, or
overflows to `+Inf`. -/
theorem round_of_zpow_le (F : FloatFormat) (hp : 1 ≤ F.prec) {q : ℚ} {n : ℤ}
    (hn : F.emin - ((F.prec : ℤ) - 1) ≤ n) (h : 2 ^ n ≤ q) :
    F.round q = .inf false ∨ ∃ r : ℚ, F.round q = .finite r ∧ 2 ^ n ≤ r := by
  have hq : 0 < q := lt_of_lt_of_le (by positivity) h
  have hmag := F.le_roundMag_of_zpow_le hp hn (a := |q|) (by rwa [abs_of_pos hq])
  unfold round
  split_ifs with h1 h2
  · left
    simp [not_lt.mpr hq.le]
  · exact absurd h2 (not_lt.mpr hq.le)
  · right
    exact ⟨_, rfl, hmag⟩

/-- A value down from `-2 ^ n` is rounded to a finite value down from
`-2 ^ n`, or overflows to `-Inf`. -/
theorem round_of_le_neg_zpow (F : FloatFormat) (hp : 1 ≤ F.prec) {q : ℚ} {n : ℤ}
    (hn : F.emin - ((F.prec : ℤ) - 1) ≤ n) (h : q ≤ -2 ^ n) :
    F.round q = .inf true ∨ ∃ r : ℚ, F.round q = .finite r ∧ r ≤ -2 ^ n := by
  have h2n : (0 : ℚ) < 2 ^ n := by positivity
  have hq : q < 0 := lt_of_le_of_lt h (by linarith)
  have hmag := F.le_roundMag_of_zpow_le hp hn (a := |q|) (by rw [abs_of_neg hq]; linarith)
  unfold round
  split_ifs with h1
  · left
    simp [hq]
  · right
    exact ⟨_, rfl, by linarith⟩

end FloatFormat

theorem normalize_zero (e : ℤ) : normalize (.finite ((2 : ℚ) ^ e)) 0 = .finite 0 := by
  unfold normalize float64OfInt
  rw [Int.cast_zero, binary64.round_zero, div64_finite_zpow, zero_div, binary64.round_zero]
  exact binary32.round_zero

theorem normalize_zero_inf : normalize (.inf false) 0 = .finite 0 := by
  unfold normalize float64OfInt
  rw [Int.cast_zero, binary64.round_zero]
  exact binary32.round_zero

/-- With a divisor `2 ^ e`, `e ≤ 149`, a positive sample gives a positive
output: no quotient is small enough to underflow to zero in `float32`. -/
theorem normalize_pos {e : ℤ} (he : e ≤ 149) {s : ℤ} (hs : 0 < s) :
    (normalize (.finite ((2 : ℚ) ^ e)) s).IsPositive := by
  have h2e : (0 : ℚ) < 2 ^ e := by positivity
  have hs1 : (2 : ℚ) ^ (0 : ℤ) ≤ (s : ℚ) := by
    rw [zpow_zero]
    exact_mod_cast hs
  unfold normalize float64OfInt
  rcases binary64.round_of_zpow_le (by simp [binary64]) (n := 0)
    (by simp [binary64, FloatFormat.emin]) hs1 with hx | ⟨x, hx, hx1⟩
  · rw [hx]
    have : div64 (.inf false) (.finite ((2 : ℚ) ^ e)) = .inf false := by
      simp [div64, not_lt.mpr h2e.le]
    rw [this]
    exact rfl
  · rw [hx, div64_finite_zpow]
    have hq : (2 : ℚ) ^ (-e) ≤ x / 2 ^ e := by
      rw [zpow_neg, ← one_div]
      rw [zpow_zero] at hx1
      exact div_le_div_of_nonneg_right hx1 h2e.le
    rcases binary64.round_of_zpow_le (by simp [binary64]) (n := -e)
      (by simp only [binary64, FloatFormat.emin]; omega) hq with hy | ⟨y, hy, hy1⟩
    · rw [hy]
      exact rfl
    · rw [hy]
      show (binary32.round y).IsPositive
      rcases binary32.round_of_zpow_le (by simp [binary32]) (n := -e)
        (by simp only [binary32, FloatFormat.emin]; omega) hy1 with hz | ⟨z, hz, hz1⟩
      · rw [hz]
        exact rfl
      · rw [hz]
        exact lt_of_lt_of_le (by positivity) hz1

/-- With a divisor `2 ^ e`, `e ≤ 149`, a negative sample gives a negative
output. -/
theorem normalize_neg {e : ℤ} (he : e ≤ 149) {s : ℤ} (hs : s < 0) :
    (normalize (.finite ((2 : ℚ) ^ e)) s).IsNegative := by
  have h2e : (0 : ℚ) < 2 ^ e := by positivity
  have hs1 : (s : ℚ) ≤ -(2 : ℚ) ^ (0 : ℤ) := by
    rw [zpow_zero]
    have : s ≤ -1 := by omega
    exact_mod_cast this
  unfold normalize float64OfInt
  rcases binary64.round_of_le_neg_zpow (by simp [binary64]) (n := 0)
    (by simp [binary64, FloatFormat.emin]) hs1 with hx | ⟨x, hx, hx1⟩
  · rw [hx]
    have : div64 (.inf true) (.finite ((2 : ℚ) ^ e)) = .inf true := by
      simp [div64, not_lt.mpr h2e.le]
    rw [this]
    exact rfl
  · rw [hx, div64_finite_zpow]
    have hq : x / 2 ^ e ≤ -(2 : ℚ) ^ (-e) := by
      rw [zpow_neg, ← one_div, ← neg_div]
      rw [zpow_zero] at hx1
      exact div_le_div_of_nonneg_right hx1 h2e.le
    rcases binary64.round_of_le_neg_zpow (by simp [binary64]) (n := -e)
      (by simp only [binary64, FloatFormat.emin]; omega) hq with hy | ⟨y, hy, hy1⟩
    · rw [hy]
      exact rfl
    · rw [hy]
      show (binary32.round y).IsNegative
      rcases binary32.round_of_le_neg_zpow (by simp [binary32]) (n := -e)
        (by simp only [binary32, FloatFormat.emin]; omega) hy1 with hz | ⟨z, hz, hz1⟩
      · rw [hz]
        exact rfl
      · rw [hz]
        have : (0 : ℚ) < 2 ^ (-e) := by positivity
        show z < 0
        linarith

/-! ## The divisor at every 64-bit bit depth -/

/-- Go's truncated division by 8, bracketed for linear arithmetic. -/
theorem tdiv8_bounds (d : ℤ) :
    d - 7 ≤ 8 * d.tdiv 8 ∧ 8 * d.tdiv 8 ≤ d + 7 ∧ (0 ≤ d → 8 * d.tdiv 8 ≤ d) ∧
      (d ≤ 0 → d ≤ 8 * d.tdiv 8) := by
  rcases le_or_lt 0 d with h0 | h0
  · rw [Int.tdiv_eq_ediv h0 (by norm_num)]
    refine ⟨by omega, by omega, fun _ => by omega, fun _ => by omega⟩
  · have hneg : d.tdiv 8 = -((-d) / 8) := by
      rw [← Int.tdiv_eq_ediv (by omega) (by norm_num), Int.neg_tdiv, neg_neg]
    rw [hneg]
    refine ⟨by omega, by omega, fun _ => by omega, fun _ => by omega⟩

/-- The conversion of an integer to `float64` keeps it on its side of every
power of two. -/
theorem round64_intCast_bounds {z : ℤ} {n : ℕ} (hn : n ≤ 1023) (h : |z| ≤ 2 ^ n) :
    ∃ w : ℤ, binary64.round (z : ℚ) = .finite (w : ℚ) ∧ |w| ≤ 2 ^ n ∧
      (∀ j : ℕ, 2 ^ j ≤ z → 2 ^ j ≤ w) ∧ (∀ j : ℕ, z ≤ -2 ^ j → w ≤ -2 ^ j) := by
  obtain ⟨w, hw, hwabs⟩ := round64_intCast_isInt hn h
  refine ⟨w, hw, hwabs, ?_, ?_⟩
  · intro j hj
    have hq : (2 : ℚ) ^ (j : ℤ) ≤ (z : ℚ) := by
      rw [zpow_natCast]
      exact_mod_cast hj
    rcases binary64.round_of_zpow_le (by simp [binary64])
      (by simp only [binary64, FloatFormat.emin]; omega) hq with hinf | ⟨r, hr, hle⟩
    · rw [hw] at hinf
      cases hinf
    · rw [hw] at hr
      injection hr with hr
      rw [← hr, zpow_natCast] at hle
      exact_mod_cast hle
  · intro j hj
    have hq : (z : ℚ) ≤ -(2 : ℚ) ^ (j : ℤ) := by
      rw [zpow_natCast]
      exact_mod_cast hj
    rcases binary64.round_of_le_neg_zpow (by simp [binary64])
      (by simp only [binary64, FloatFormat.emin]; omega) hq with hinf | ⟨r, hr, hle⟩
    · rw [hw] at hinf
      cases hinf
    · rw [hw] at hr
      injection hr with hr
      rw [← hr, zpow_natCast] at hle
      exact_mod_cast hle

/-- The exponent handed to `math.Pow` is an integer above 1023 when
`bitDepth / 8` is above 128, and an integer below -1075 when `bitDepth / 8` is
below -134: the rounding of a huge byte count does not bring it back. -/
theorem exponent_bounds {d : ℤ} (hd : IsInt64 d) :
    ∃ w : ℤ,
      sub64 (mul64 (.finite 8) (float64OfInt (d.tdiv 8))) (.finite 1) = .finite (w : ℚ) ∧
      (129 ≤ d.tdiv 8 → 1023 < w) ∧ (d.tdiv 8 ≤ -135 → w < -1075) := by
  obtain ⟨hd1, hd2⟩ := hd
  obtain ⟨t1, t2, _, _⟩ := tdiv8_bounds d
  have hk : |d.tdiv 8| ≤ 2 ^ 60 := by
    rw [abs_le]
    constructor <;> omega
  obtain ⟨x, hx, hxabs, hxlo, hxhi⟩ := round64_intCast_bounds (n := 60) (by norm_num) hk
  have hx8 : |8 * x| ≤ 2 ^ 63 := by
    rw [abs_le] at hxabs ⊢
    constructor <;> omega
  obtain ⟨y, hy, hyabs, hylo, hyhi⟩ := round64_intCast_bounds (n := 63) (by norm_num) hx8
  have hy1 : |y - 1| ≤ 2 ^ 64 := by
    rw [abs_le] at hyabs ⊢
    constructor <;> omega
  obtain ⟨w, hw, _, hwlo, hwhi⟩ := round64_intCast_bounds (n := 64) (by norm_num) hy1
  have hval : sub64 (mul64 (.finite 8) (float64OfInt (d.tdiv 8))) (.finite 1) =
      .finite (w : ℚ) := by
    unfold float64OfInt
    rw [hx]
    show sub64 (binary64.round ((8 : ℚ) * (x : ℚ))) (.finite 1) = _
    have e1 : (8 : ℚ) * (x : ℚ) = ((8 * x : ℤ) : ℚ) := by push_cast; rfl
    rw [e1, hy]
    show binary64.round ((y : ℚ) - 1) = _
    have e2 : (y : ℚ) - 1 = ((y - 1 : ℤ) : ℚ) := by push_cast; rfl
    rw [e2, hw]
  rcases le_or_lt |d.tdiv 8| (2 ^ 49) with hsmall | hbig
  · have hexact := exponent_eq hsmall
    rw [hval] at hexact
    injection hexact with hexact
    have hwk : w = 8 * d.tdiv 8 - 1 := by exact_mod_cast hexact
    exact ⟨w, hval, fun h => by omega, fun h => by omega⟩
  · refine ⟨w, hval, fun h => ?_, fun h => ?_⟩
    · have hk49 : (2 : ℤ) ^ 49 ≤ d.tdiv 8 := by
        rw [abs_of_nonneg (by omega)] at hbig
        exact hbig.le
      have h1 := hxlo 49 hk49
      have h2 := hylo 52 (by omega)
      have h3 := hwlo 51 (by omega)
      omega
    · have hk49 : d.tdiv 8 ≤ -(2 : ℤ) ^ 49 := by
        rw [abs_of_neg (by omega)] at hbig
        omega
      have h1 := hxhi 49 hk49
      have h2 := hyhi 52 (by omega)
      have h3 := hwhi 52 (by omega)
      omega

/-- Above 1031 bits the power of two overflows `float64`: the divisor is
`+Inf`. -/
theorem factor_overflow {d : ℤ} (hd : IsInt64 d) (h : 1032 ≤ d) : factor d = .inf false := by
  obtain ⟨w, hw, hlo, _⟩ := exponent_bounds hd
  obtain ⟨t1, t2, _, _⟩ := tdiv8_bounds d
  unfold factor
  rw [hw]
  unfold mathPow2
  simp only [Rat.intCast_den, Rat.intCast_num, if_true]
  rw [if_pos (hlo (by omega))]

/-- Below -1079 bits the power of two underflows `float64`: the divisor is
`0`. -/
theorem factor_underflow {d : ℤ} (hd : IsInt64 d) (h : d ≤ -1080) : factor d = .finite 0 := by
  obtain ⟨w, hw, hlo, hhi⟩ := exponent_bounds hd
  obtain ⟨t1, t2, _, _⟩ := tdiv8_bounds d
  have hw1 : w < -1075 := hhi (by omega)
  unfold factor
  rw [hw]
  unfold mathPow2
  simp only [Rat.intCast_den, Rat.intCast_num, if_true]
  rw [if_neg (by omega), if_pos hw1]

/-- From -1079 to 1031 bits the divisor is the power of two. -/
theorem factor_in_range {d : ℤ} (h1 : -1079 ≤ d) (h2 : d ≤ 1031) :
    factor d = .finite ((2 : ℚ) ^ (8 * d.tdiv 8 - 1)) := by
  obtain ⟨t1, t2, _, _⟩ := tdiv8_bounds d
  exact factor_eq (by omega) (by omega)

/-- Rounding of a positive value below the normal range to a known multiple
`n` of the smallest subnormal. -/
theorem FloatFormat.round_of_subnormal (F : FloatFormat) {q : ℚ} {n : ℤ} (hq : 0 < q)
    (hlt : q < 2 ^ F.emin)
    (hn : |q / 2 ^ (F.emin - ((F.prec : ℤ) - 1)) - n| < 1 / 2)
    (hfin : (n : ℚ) * 2 ^ (F.emin - ((F.prec : ℤ) - 1)) < 2 ^ (F.emax + 1)) :
    F.round q = .finite ((n : ℚ) * 2 ^ (F.emin - ((F.prec : ℤ) - 1))) := by
  have hlog := FloatFormat.log_lt_of_lt_zpow hq hlt
  have hexp : F.exponent q = F.emin := by
    unfold FloatFormat.exponent
    exact max_eq_right hlog.le
  have hmag : F.roundMag |q| = (n : ℚ) * 2 ^ (F.emin - ((F.prec : ℤ) - 1)) := by
    rw [abs_of_pos hq]
    unfold FloatFormat.roundMag FloatFormat.ulp
    rw [hexp, roundHalfEven_eq_of_abs_sub_lt hn]
  unfold FloatFormat.round
  rw [hmag, if_neg (not_le.mpr hfin), if_neg (not_lt.mpr hq.le)]

theorem float64OfInt_zero : float64OfInt 0 = .finite 0 := by
  unfold float64OfInt
  rw [Int.cast_zero]
  exact binary64.round_zero

theorem float64OfInt_one : float64OfInt 1 = .finite 1 := by
  have := float64OfInt_of_abs_le (s := 1) (by decide)
  simpa using this

theorem factor_152 : factor 152 = .finite ((2 : ℚ) ^ (151 : ℤ)) :=
  factor_eq (d := 152) (by decide) (by decide)

/-- At 152 bits the quotient `1 / 2 ^ 151` is a `float64` but lies below half
the smallest `float32`: the sample 1 is mapped to 0. -/
theorem normalize_152_one : normalize (.finite ((2 : ℚ) ^ (151 : ℤ))) 1 = .finite 0 := by
  have h2 : binary64.round ((1 : ℚ) / 2 ^ (151 : ℤ)) = .finite ((2 : ℚ) ^ (-151 : ℤ)) := by
    have := binary64.round_of_representable (by simp [binary64]) (representable64_zpow
      (j := -151) (by norm_num) (by norm_num))
    rw [← this, one_div, ← zpow_neg]
  have h3 : binary32.round ((2 : ℚ) ^ (-151 : ℤ)) = .finite 0 := by
    have := binary32.round_of_subnormal (q := (2 : ℚ) ^ (-151 : ℤ)) (n := 0) (by positivity)
      (by
        simp only [binary32, FloatFormat.emin]
        exact zpow_lt_zpow_right₀ (by norm_num) (by norm_num))
      (by
        simp only [binary32, FloatFormat.emin]
        rw [← zpow_sub₀ (by norm_num : (2 : ℚ) ≠ 0)]
        norm_num [abs_lt])
      (by
        simp only [Int.cast_zero, zero_mul]
        positivity)
    rw [this]
    simp
  unfold normalize
  rw [float64OfInt_one, div64_finite_zpow, h2]
  exact h3

/-- Counterexample to C18 as stated: at the bit depth -1080 the factor is `0`,
not a positive number: the sample 0 is mapped to NaN and the sample 1 to
`+Inf`.  At the bit depth 152 the factor is `2 ^ 151` and the sample 1 is
mapped to 0, which has not the sign of its sample. -/
theorem AsFloat32Buffer_factor_not_positive :
    factor (-1080) = .finite 0 ∧
      AsFloat32Buffer (some ⟨some ⟨1, 44100⟩, [0, 1], -1080⟩) =
        .ok ⟨some ⟨1, 44100⟩, [.nan, .inf false]⟩ ∧
      AsFloat32Buffer (some ⟨some ⟨1, 44100⟩, [1], 152⟩) =
        .ok ⟨some ⟨1, 44100⟩, [.finite 0]⟩ := by
  have hfac : factor (-1080) = .finite 0 := factor_underflow (by decide) (by decide)
  have h0 : normalize (.finite 0) 0 = .nan := by
    unfold normalize
    rw [float64OfInt_zero]
    simp [div64, float32OfFloat64]
  have h1 : normalize (.finite 0) 1 = .inf false := by
    unfold normalize
    rw [float64OfInt_one]
    simp [div64, float32OfFloat64]
  refine ⟨hfac, ?_, ?_⟩
  · rw [AsFloat32Buffer_ok rfl]
    have hb : bitDepth ⟨some ⟨1, 44100⟩, [0, 1], -1080⟩ = -1080 := by decide
    simp only [hb, hfac, List.map_cons, List.map_nil, h0, h1]
  · rw [AsFloat32Buffer_ok rfl]
    have hb : bitDepth ⟨some ⟨1, 44100⟩, [1], 152⟩ = 152 := by decide
    simp only [hb, factor_152, List.map_cons, List.map_nil, normalize_152_one]

/-- C18 (amended): for every 64-bit bit depth `d` in use, negative values and
values that are not multiples of 8 included, the factor is the positive power
of two `2 ^ (8 * (d / 8) - 1)` from -1079 to 1031, `+Inf` above and `0` below.
From -1079 on the sample 0 is mapped to 0, and from -1079 to 151 every output
has the sign of its sample (it may be infinite). -/
theorem AsFloat32Buffer_factor_sign (buf : IntBuffer) (f : Format) (d : ℤ)
    (hf : buf.Format = some f) (hb : bitDepth buf = d) (hd : IsInt64 d) :
    (-1079 ≤ d → d ≤ 1031 →
      factor d = .finite ((2 : ℚ) ^ (8 * d.tdiv 8 - 1)) ∧ (0 : ℚ) < 2 ^ (8 * d.tdiv 8 - 1)) ∧
    (1032 ≤ d → factor d = .inf false) ∧
    (d ≤ -1080 → factor d = .finite 0) ∧
    ∃ out, AsFloat32Buffer (some buf) = .ok out ∧
      (-1079 ≤ d → ∀ i : ℕ, buf.Data[i]? = some 0 → out.Data[i]? = some (.finite 0)) ∧
      (-1079 ≤ d → d ≤ 151 → ∀ (i : ℕ) (s : ℤ), buf.Data[i]? = some s →
        ∃ x : FloatVal, out.Data[i]? = some x ∧
          (0 < s → x.IsPositive) ∧ (s < 0 → x.IsNegative)) := by
  obtain ⟨t1, t2, _, _⟩ := tdiv8_bounds d
  refine ⟨fun h1 h2 => ⟨factor_in_range h1 h2, by positivity⟩, factor_overflow hd,
    factor_underflow hd, _, AsFloat32Buffer_ok hf, ?_, ?_⟩
  · intro h1 i hs
    simp only [List.getElem?_map, hs, Option.map_some', hb]
    rcases le_or_lt d 1031 with h2 | h2
    · rw [factor_in_range h1 h2, normalize_zero]
    · rw [factor_overflow hd (by omega), normalize_zero_inf]
  · intro h1 h2 i s hs
    refine ⟨normalize (factor d) s, ?_, ?_, ?_⟩
    · simp only [List.getElem?_map, hs, Option.map_some', hb]
    · intro hpos
      rw [factor_in_range h1 (by omega)]
      exact normalize_pos (by omega) hpos
    · intro hneg
      rw [factor_in_range h1 (by omega)]
      exact normalize_neg (by omega) hneg

/-- Witness of C18 (amended) at the bit depth -3, which is negative and not a
multiple of 8: the factor is `2 ^ (-1)`. -/
theorem AsFloat32Buffer_factor_sign_witness :
    bitDepth ⟨some ⟨1, 8000⟩, [-5, 0, 7], -3⟩ = -3 ∧ IsInt64 (-3) ∧
      factor (-3) = .finite ((2 : ℚ) ^ (8 * (-3 : ℤ).tdiv 8 - 1)) ∧
      ∃ out, AsFloat32Buffer (some ⟨some ⟨1, 8000⟩, [-5, 0, 7], -3⟩) = .ok out ∧
        out.Data[1]? = some (.finite 0) ∧
        ∃ x : FloatVal, out.Data[0]? = some x ∧ x.IsNegative := by
  obtain ⟨h1, _, _, out, h4, h5, h6⟩ := AsFloat32Buffer_factor_sign
    ⟨some ⟨1, 8000⟩, [-5, 0, 7], -3⟩ ⟨1, 8000⟩ (-3) rfl (by decide) (by decide)
  obtain ⟨x, hx, _, hxneg⟩ := h6 (by decide) (by decide) 0 (-5) (by decide)
  exact ⟨by decide, by decide, (h1 (by decide) (by decide)).1, out, h4,
    h5 (by decide) 1 (by decide), x, hx, hxneg (by decide)⟩

end Audio
